import Mathlib

/-!
The `pit` table engine (`src/table.c`): a shallow embedding of the record table of
`table.c` and proofs about it.

* A `ulong`, a `time_t` and a pointer are 64 bit wide (LP64), bytes are stored
  little-endian.  An address is a natural number below `2 ^ 64`, `0` is `NULL`, and pointer
  arithmetic is reduced modulo `2 ^ 64`.
* The block at `pt->slots` holds `number_of_slots * record_size` bytes and the block at
  `pt->index` holds `number_of_slots` pointers: every function of `table.c` allocates them
  with exactly these sizes.  Their contents are functions from the offset (the entry number)
  to the value stored there.
* An access outside these two blocks is undefined behaviour in C; the embedding of the
  function then returns `none`.
* The five counters are natural numbers.  A counter never exceeds the number of entries of
  the index block in a call that returns, so it stays far below `2 ^ 64` and its increments
  are written without reduction.
* The answers of the C library (the clock, the address of a block handed out by `calloc` or
  `realloc`, the indeterminate contents of memory that `realloc` adds) are inputs.
* A file is the list of its bytes; the writes of `table_save` are not short.
* The helper `table_last_index`, which no function calls, and `table_free` are not embedded.
-/

namespace Pit

/-! ## Machine words -/

/-- Reduction of a value to a 64 bit word. -/
def w64 (x : Nat) : Nat := x % 2 ^ 64

/-- Pointer (or `ulong`) subtraction `a - b` on 64 bit words. -/
def psub (a b : Nat) : Nat := (a + (2 ^ 64 - b % 2 ^ 64)) % 2 ^ 64

/-- Byte `i` of the little-endian representation of the word `v`. -/
def le_byte (v i : Nat) : Nat := v / 256 ^ i % 256

/-- The `ulong` stored little-endian in the 8 bytes of `mem` from offset `off` on. -/
def read_u64 (mem : Nat → Nat) (off : Nat) : Nat :=
  mem off + 256 * (mem (off + 1) + 256 * (mem (off + 2) + 256 * (mem (off + 3)
    + 256 * (mem (off + 4) + 256 * (mem (off + 5) + 256 * (mem (off + 6)
    + 256 * mem (off + 7)))))))

/-- Store of the word `v` in the 8 bytes of `mem` from offset `off` on. -/
def write_u64 (mem : Nat → Nat) (off v : Nat) : Nat → Nat :=
  fun o => if off ≤ o ∧ o < off + 8 then le_byte v (o - off) else mem o

/-- The call `memset(mem + off, 0, n)`. -/
def memset0 (mem : Nat → Nat) (off n : Nat) : Nat → Nat :=
  fun o => if off ≤ o ∧ o < off + n then 0 else mem o

/-- The call `memmove(mem + dst, mem + src, n)` inside one block. -/
def memmove_in (mem : Nat → Nat) (dst src n : Nat) : Nat → Nat :=
  fun o => if dst ≤ o ∧ o < dst + n then mem (o - dst + src) else mem o

/-- The call `memmove(mem + dst, record, n)` from a buffer of the caller. -/
def memmove_from (mem : Nat → Nat) (dst : Nat) (record : Nat → Nat) (n : Nat) : Nat → Nat :=
  fun o => if dst ≤ o ∧ o < dst + n then record (o - dst) else mem o

/-! ## The table -/

def TABLE_INCREMENT : Nat := 5
def TABLE_HAS_ID : Nat := 1
def TABLE_HAS_CREATED_AT : Nat := 2
def TABLE_HAS_UPDATED_AT : Nat := 4

/-- Modelled from the spec: the declaration of `Table` (`table.h` is not among the sources).
The five `ulong` header fields come first, in the order in which `table_save` writes them
(flags, record size, slot capacity, live count, next-id counter), then the pointers `slots`
and `index`; the structure here holds the pointer `slots` and the contents of the two
blocks. -/
structure Table where
  flags : Nat
  record_size : Nat
  number_of_slots : Nat
  number_of_records : Nat
  auto_increment : Nat
  /-- the address `pt->slots` of the record block -/
  slots : Nat
  /-- the byte at each offset of the record block -/
  bytes : Nat → Nat
  /-- the pointer in each entry of the block `pt->index` -/
  index : Nat → Nat

/-- What the C library answers during one call of `table_insert`. -/
structure Env where
  /-- the value of `time(NULL)` -/
  now : Nat
  /-- the address returned by `realloc(pt->slots, ...)` -/
  slots : Nat
  /-- the indeterminate bytes of the part `realloc` adds to the record block -/
  fresh : Nat → Nat
  /-- the indeterminate entries of the part `realloc` adds to the index block -/
  ifresh : Nat → Nat

/-- The `n` bytes at address `p` lie inside the record block of `pt`. -/
def in_slots (pt : Table) (p n : Nat) : Bool :=
  decide (pt.slots ≠ 0 ∧ pt.slots ≤ p ∧
    p + n ≤ pt.slots + pt.number_of_slots * pt.record_size)

/-- The function `table_initialize`, with the address `a` that `calloc` returns for the record block. -/
def table_initialize (record_size flags a : Nat) : Table where
  flags := flags ||| TABLE_HAS_ID
  record_size := record_size
  number_of_slots := TABLE_INCREMENT
  number_of_records := 0
  auto_increment := 0
  slots := a
  bytes := fun _ => 0
  index := fun _ => 0

/-- The function `table_available_slot`: the address of the next free slot. -/
def table_available_slot (pt : Table) : Nat :=
  w64 (pt.slots + pt.number_of_records * pt.record_size)

/-- The function `table_last_record`: the address of the last stored record. -/
def table_last_record (pt : Table) : Nat :=
  if pt.number_of_records = 0 then pt.slots
  else psub (table_available_slot pt) pt.record_size

/-- The function `table_available_index`: the entry number of `pt->index + pt->auto_increment`. -/
def table_available_index (pt : Table) : Nat := pt.auto_increment

/-- The function `table_extend`: the table after the growth, with the answers `env` of
`realloc`. -/
def table_extend (pt : Table) (env : Env) : Option Table :=
  -- pt->number_of_slots += TABLE_INCREMENT; pt->slots = realloc(...)
  let pt1 : Table := { pt with
    number_of_slots := pt.number_of_slots + TABLE_INCREMENT
    slots := env.slots
    bytes := fun o => if o < pt.number_of_slots * pt.record_size then pt.bytes o
                      else env.fresh o }
  -- memset(table_available_slot(pt), 0, TABLE_INCREMENT * pt->record_size)
  let p := table_available_slot pt1
  if in_slots pt1 p (TABLE_INCREMENT * pt1.record_size) = false then none else
  let bytes2 := memset0 pt1.bytes (p - pt1.slots) (TABLE_INCREMENT * pt1.record_size)
  -- pt->index = realloc(...); memset(table_available_index(pt), 0, ...)
  let index1 : Nat → Nat := fun i => if i < pt.number_of_slots then pt.index i else env.ifresh i
  if pt1.number_of_slots < table_available_index pt1 + TABLE_INCREMENT then none else
  let index2 := memset0 index1 (table_available_index pt1) TABLE_INCREMENT
  -- for (i = 0, pi = pt->index; i < pt->auto_increment; i++, pi++) ...
  let index3 : Nat → Nat := fun i =>
    if i < pt1.auto_increment ∧ index2 i ≠ 0 then w64 (pt1.slots + i * pt1.record_size)
    else index2 i
  some { pt1 with bytes := bytes2, index := index3 }

/-- The function `table_find`: `some 0` is `NULL`, `none` a read outside the index block. -/
def table_find (pt : Table) (id : Nat) : Option Nat :=
  if pt.number_of_records = 0 ∨ id = 0 ∨ id > pt.auto_increment then some 0
  else if id - 1 < pt.number_of_slots then some (pt.index (id - 1)) else none

/-- The function `table_delete`: the table after the call and the pointer returned. -/
def table_delete (pt : Table) (id : Nat) : Option (Table × Nat) :=
  match table_find pt id with
  | none => none
  | some pr =>
    if pr = 0 then some (pt, 0) else
    let last := table_last_record pt
    -- if (pr != last) memmove(pr, pr + pt->record_size, last - pr)
    let n := psub last pr
    if pr ≠ last ∧ (in_slots pt pr n = false ∨ in_slots pt (w64 (pr + pt.record_size)) n = false)
    then none else
    let bytes1 := if pr ≠ last
      then memmove_in pt.bytes (pr - pt.slots) (w64 (pr + pt.record_size) - pt.slots) n
      else pt.bytes
    -- memset(last, 0, pt->record_size)
    if in_slots pt last pt.record_size = false then none else
    let bytes2 := memset0 bytes1 (last - pt.slots) pt.record_size
    -- *pi++ = NULL; for (i = id; i < pt->auto_increment; i++) *pi++ -= pt->record_size
    if pt.number_of_slots < pt.auto_increment then none else
    let index1 : Nat → Nat := fun i =>
      if i = id - 1 then 0
      else if id ≤ i ∧ i < pt.auto_increment then psub (pt.index i) pt.record_size
      else pt.index i
    let pt1 : Table := { pt with
      bytes := bytes2, index := index1, number_of_records := pt.number_of_records - 1 }
    some (pt1, if pt1.number_of_records > 0 then pr else 0)

/-- The function `table_insert`: the table after the call and the pointer returned.  `record` gives the
bytes of the caller's buffer. -/
def table_insert (pt : Table) (record : Nat → Nat) (env : Env) : Option (Table × Nat) :=
  match (if pt.number_of_records ≥ pt.number_of_slots then table_extend pt env else some pt) with
  | none => none
  | some pt =>
    -- pi = table_available_index(pt); *pi = table_available_slot(pt)
    let pi := table_available_index pt
    if pt.number_of_slots ≤ pi then none else
    let p := table_available_slot pt
    -- memmove(table_available_slot(pt), record, pt->record_size)
    if in_slots pt p pt.record_size = false then none else
    let bytes1 := memmove_from pt.bytes (p - pt.slots) record pt.record_size
    let auto := pt.auto_increment + 1
    -- if (pt->flags & TABLE_HAS_ID) *(ulong *)*pi = pt->auto_increment
    let has_id := pt.flags &&& TABLE_HAS_ID ≠ 0
    if has_id ∧ in_slots pt p 8 = false then none else
    let bytes2 := if has_id then write_u64 bytes1 (p - pt.slots) auto else bytes1
    -- if (created_at || updated_at) *(time_t *)(*pi + pt->record_size - sizeof(time_t)) = now
    let any_ts := pt.flags &&& TABLE_HAS_CREATED_AT ≠ 0 ∨ pt.flags &&& TABLE_HAS_UPDATED_AT ≠ 0
    let p1 := psub (w64 (p + pt.record_size)) 8
    if any_ts ∧ in_slots pt p1 8 = false then none else
    let bytes3 := if any_ts then write_u64 bytes2 (p1 - pt.slots) env.now else bytes2
    -- if (created_at && updated_at) *(time_t *)(*pi + pt->record_size - sizeof(time_t) * 2) = now
    let both_ts := pt.flags &&& TABLE_HAS_CREATED_AT ≠ 0 ∧ pt.flags &&& TABLE_HAS_UPDATED_AT ≠ 0
    let p2 := psub (w64 (p + pt.record_size)) 16
    if both_ts ∧ in_slots pt p2 8 = false then none else
    let bytes4 := if both_ts then write_u64 bytes3 (p2 - pt.slots) env.now else bytes3
    some ({ pt with
      bytes := bytes4
      index := fun i => if i = pi then p else pt.index i
      number_of_records := pt.number_of_records + 1
      auto_increment := auto }, p)

/-- The 8 bytes of the word `v`, little-endian. -/
def le_bytes (v : Nat) : List Nat := (List.range 8).map (le_byte v)

/-- Conversion of a count to the C type `int` (32 bit, two's complement). -/
def to_int (x : Nat) : Int :=
  if x % 2 ^ 32 < 2 ^ 31 then (x % 2 ^ 32 : Nat) else (x % 2 ^ 32 : Nat) - 2 ^ 32

/-- The function `table_save` when no write is short: the bytes written to the file and the value
returned.  `fwrite` returns the number of items written, which is `0` for items of size 0. -/
def table_save (pt : Table) : Option (List Nat × Int) :=
  -- fwrite(pt, sizeof(ulong), 5, file)
  let header := le_bytes pt.flags ++ le_bytes pt.record_size ++ le_bytes pt.number_of_slots
    ++ le_bytes pt.number_of_records ++ le_bytes pt.auto_increment
  -- fwrite(pt->slots, pt->record_size, pt->number_of_records, file)
  let n := pt.number_of_records * pt.record_size
  if n ≠ 0 ∧ in_slots pt pt.slots n = false then none else
  some (header ++ (List.range n).map pt.bytes,
    to_int (5 + (if pt.record_size = 0 then 0 else pt.number_of_records)))

/-- The loop of `table_load` that rebuilds the index: `k` iterations remain, `i` is the loop
counter, `pr` the record pointer, and `pi` is `pt->index + i`. -/
def load_index (pt : Table) : Nat → Nat → Nat → (Nat → Nat) → Option (Nat → Nat)
  | 0, _, _, index => some index
  | k + 1, i, pr, index =>
    -- if ((ulong)*pr == i + 1): one byte is read and widened
    if in_slots pt pr 1 = false then none else
    if pt.bytes (pr - pt.slots) = i + 1 then
      -- *pi = pr; pr += pt->record_size
      if pt.number_of_slots ≤ i then none else
      load_index pt k (i + 1) (w64 (pr + pt.record_size)) (fun j => if j = i then pr else index j)
    else load_index pt k (i + 1) pr index

/-- The function `table_load` on the bytes `file`, with the address `a` that `calloc` returns for the
record block.  A short `fread` leaves the rest of its (zero-filled) destination untouched. -/
def table_load (file : List Nat) (a : Nat) : Option Table :=
  -- pt = calloc(1, sizeof(Table)); fread(pt, sizeof(ulong), 5, file)
  let hdr : Nat → Nat := fun o => if o < 40 then file.getD o 0 else 0
  let pt0 : Table :=
    { flags := read_u64 hdr 0
      record_size := read_u64 hdr 8
      number_of_slots := read_u64 hdr 16
      number_of_records := read_u64 hdr 24
      auto_increment := read_u64 hdr 32
      slots := a
      bytes := fun _ => 0
      index := fun _ => 0 }
  -- fread(pt->slots, pt->record_size, pt->number_of_records, file)
  let n := min (file.length - 40) (pt0.number_of_records * pt0.record_size)
  if n ≠ 0 ∧ in_slots pt0 a n = false then none else
  let pt1 : Table := { pt0 with bytes := fun o => if o < n then file.getD (40 + o) 0 else 0 }
  -- for (i = 0; i < pt->number_of_records; i++, pi++) ...
  match load_index pt1 pt1.number_of_records 0 a pt1.index with
  | none => none
  | some index => some { pt1 with index := index }

/-! ## Runs of calls -/

/-- A block of `size` bytes at address `a` as the allocator hands it out: `a` is not `NULL`
and the block lies in the lower half of the address space. -/
def ok_block (a size : Nat) : Prop := 0 < a ∧ a + size ≤ 2 ^ 63

instance (a size : Nat) : Decidable (ok_block a size) := by
  unfold ok_block; infer_instance

/-- The fields that `table_insert` writes lie inside a record of `record_size` bytes. -/
def fits (flags record_size : Nat) : Prop :=
  (flags &&& TABLE_HAS_ID ≠ 0 → 8 ≤ record_size) ∧
  (flags &&& TABLE_HAS_CREATED_AT ≠ 0 ∨ flags &&& TABLE_HAS_UPDATED_AT ≠ 0 → 8 ≤ record_size) ∧
  (flags &&& TABLE_HAS_CREATED_AT ≠ 0 ∧ flags &&& TABLE_HAS_UPDATED_AT ≠ 0 → 16 ≤ record_size)

instance (flags record_size : Nat) : Decidable (fits flags record_size) := by
  unfold fits; infer_instance

/-- The number of bytes at the end of a record that `table_insert` stamps with the time. -/
def stamped_tail (flags : Nat) : Nat :=
  if flags &&& TABLE_HAS_CREATED_AT ≠ 0 ∧ flags &&& TABLE_HAS_UPDATED_AT ≠ 0 then 16
  else if flags &&& TABLE_HAS_CREATED_AT ≠ 0 ∨ flags &&& TABLE_HAS_UPDATED_AT ≠ 0 then 8
  else 0

/-- The record is large enough to hold the identity field and the stamped timestamp fields
without overlap. -/
def layout_ok (flags record_size : Nat) : Prop := 8 + stamped_tail flags ≤ record_size

instance (flags record_size : Nat) : Decidable (layout_ok flags record_size) := by
  unfold layout_ok; infer_instance

/-- The bytes of the record that `table_insert` stores for the caller's bytes `record`, the
identity `id` and the clock value `now`. -/
def stamp (flags record_size : Nat) (record : Nat → Nat) (id now : Nat) : Nat → Nat :=
  let b1 := if flags &&& TABLE_HAS_ID ≠ 0 then write_u64 record 0 id else record
  let b2 := if flags &&& TABLE_HAS_CREATED_AT ≠ 0 ∨ flags &&& TABLE_HAS_UPDATED_AT ≠ 0
    then write_u64 b1 (record_size - 8) now else b1
  if flags &&& TABLE_HAS_CREATED_AT ≠ 0 ∧ flags &&& TABLE_HAS_UPDATED_AT ≠ 0
    then write_u64 b2 (record_size - 16) now else b2

/-- The record of `pt` at address `p`: byte `o` of it. -/
def record_at (pt : Table) (p : Nat) : Nat → Nat := fun o => pt.bytes (p - pt.slots + o)

/-- The tables reached from `table_initialize record_size flags` by calls of `table_insert`
and `table_delete` that return, together with the identities `live` that were assigned by an
insert and not removed by a delete since, and the record `content id` stored for each
identity.  The allocator hands out blocks that satisfy `ok_block`. -/
inductive Reach (record_size flags : Nat) : Finset Nat → (Nat → Nat → Nat) → Table → Prop
  | init (a : Nat) (h : ok_block a (TABLE_INCREMENT * record_size)) :
      Reach record_size flags ∅ (fun _ _ => 0) ( table_initialize record_size flags a)
  | step_insert {live : Finset Nat} {content : Nat → Nat → Nat} {pt pt1 : Table} {p : Nat}
      (record : Nat → Nat) (env : Env)
      (h : Reach record_size flags live content pt)
      (halloc : pt.number_of_slots ≤ pt.number_of_records →
        ok_block env.slots ((pt.number_of_slots + TABLE_INCREMENT) * record_size))
      (hcall : table_insert pt record env = some (pt1, p)) :
      Reach record_size flags (Insert.insert pt1.auto_increment live)
        (Function.update content pt1.auto_increment
          (stamp pt.flags record_size record pt1.auto_increment env.now)) pt1
  | step_delete {live : Finset Nat} {content : Nat → Nat → Nat} {pt pt1 : Table} {p : Nat}
      (id : Nat)
      (h : Reach record_size flags live content pt)
      (hcall : table_delete pt id = some (pt1, p)) :
      Reach record_size flags (live.erase id) content pt1

/-- The table after inserting the records `records 0`, ..., `records (n - 1)` one after
another into the table `pt`, the C library answering the `i`-th call with `envs i`. -/
def insert_all (pt : Table) (records : Nat → Nat → Nat) (envs : Nat → Env) :
    Nat → Option Table
  | 0 => some pt
  | n + 1 =>
    match insert_all pt records envs n with
    | none => none
    | some t => (table_insert t (records n) (envs n)).map Prod.fst

/-- The table after deleting the identities `m + 1`, ..., `m + j` of `pt` in ascending
order. -/
def delete_from (pt : Table) (m : Nat) : Nat → Option Table
  | 0 => some pt
  | j + 1 =>
    match delete_from pt m j with
    | none => none
    | some t => (table_delete t (m + j + 1)).map Prod.fst

/-- The record stored for identity `k` by the `k`-th of `n` inserts into a fresh table. -/
def fresh_content (record_size flags : Nat) (records : Nat → Nat → Nat) (envs : Nat → Env)
    (n : Nat) : Nat → Nat → Nat :=
  fun k o => if 1 ≤ k ∧ k ≤ n
    then stamp (flags ||| TABLE_HAS_ID) record_size (records (k - 1)) k (envs (k - 1)).now o
    else 0

/-- The number of live identities below `id`: the physical position of the record with
identity `id` among the records of the table. -/
def rank (live : Finset Nat) (id : Nat) : Nat := (live.filter (fun j => j < id)).card

/-- The index invariant of a table whose live identities are `live`: both blocks are
allocated, the counters agree with `live`, the index entry of a live identity is the address
of the slot at its physical position, and the index entry of a retired identity is `NULL` or
an address above the record block (`NULL` lowered by a later delete). -/
structure Inv (live : Finset Nat) (pt : Table) : Prop where
  block : ok_block pt.slots (pt.number_of_slots * pt.record_size)
  auto_le : pt.auto_increment ≤ pt.number_of_slots
  ids : ∀ k ∈ live, 1 ≤ k ∧ k ≤ pt.auto_increment
  count : pt.number_of_records = live.card
  live_at : ∀ k ∈ live, pt.index (k - 1) = pt.slots + rank live k * pt.record_size
  dead_at : ∀ k, 1 ≤ k → k ≤ pt.auto_increment → k ∉ live →
    pt.index (k - 1) = 0 ∨
    (2 ^ 64 - (pt.auto_increment - pt.number_of_records) * pt.record_size ≤ pt.index (k - 1) ∧
      pt.index (k - 1) < 2 ^ 64)

/-- The content invariant: the slot at the physical position of a live identity holds the
record stored for it, and the slots after the last record are zero. -/
structure Stored (live : Finset Nat) (content : Nat → Nat → Nat) (pt : Table) : Prop where
  rec_at : ∀ k ∈ live, ∀ o, o < pt.record_size →
    pt.bytes (rank live k * pt.record_size + o) = content k o
  zero_tail : ∀ o, pt.number_of_records * pt.record_size ≤ o →
    o < pt.number_of_slots * pt.record_size → pt.bytes o = 0

/-- The clock and allocator answers used in the examples. -/
def demo_env : Env := ⟨1700000000, 8192, fun _ => 170, fun _ => 85⟩

/-- The records inserted in the examples: record `i` is filled with the byte `i + 1`. -/
def demo_records : Nat → Nat → Nat := fun i _ => i + 1

/-- The example table after `n` inserts: records of 24 bytes, both timestamp flags. -/
def demo_table (n : Nat) : Table :=
  (insert_all ( table_initialize 24 6 4096) demo_records (fun _ => demo_env) n).getD
    ( table_initialize 24 6 4096)

/-- The example table after three inserts and `table_delete 2`. -/
def demo_deleted : Table :=
  ((table_delete (demo_table 3) 2).getD (demo_table 3, 0)).1

/-- The bytes that `table_save` writes for the table `pt` (empty when it does not return). -/
def saved (pt : Table) : List Nat := ((table_save pt).getD ([], 0)).1

/-- The example table after five inserts and `table_delete 1`. -/
def demo_gap : Table :=
  ((table_delete (demo_table 5) 1).getD (demo_table 5, 0)).1

theorem w64_of_lt {x : Nat} (h : x < 2 ^ 64) : w64 x = x := by
  unfold w64; omega

theorem psub_of_le {a b : Nat} (hb : b ≤ a) (ha : a < 2 ^ 64) : psub a b = a - b := by
  unfold psub; omega

theorem rank_lt_card {live : Finset Nat} {k : Nat} (hk : k ∈ live) :
    rank live k < live.card := by
  unfold rank
  apply Finset.card_lt_card
  refine Finset.ssubset_iff_subset_ne.mpr ⟨Finset.filter_subset _ _, fun h => ?_⟩
  have := h ▸ hk
  simp at this

theorem rank_insert_of_le {live : Finset Nat} {a k : Nat} (h : k ≤ a) :
    rank (insert a live) k = rank live k := by
  unfold rank
  rw [Finset.filter_insert, if_neg (by omega)]

theorem rank_erase_of_le {live : Finset Nat} {a k : Nat} (h : k ≤ a) :
    rank (live.erase a) k = rank live k := by
  unfold rank
  rw [Finset.filter_erase, Finset.erase_eq_of_not_mem]
  simp; omega

theorem rank_erase_of_lt {live : Finset Nat} {a k : Nat} (ha : a ∈ live) (h : a < k) :
    rank (live.erase a) k + 1 = rank live k := by
  unfold rank
  rw [Finset.filter_erase, Finset.card_erase_of_mem (by simp [ha, h])]
  have : 0 < (live.filter (fun j => j < k)).card :=
    Finset.card_pos.mpr ⟨a, by simp [ha, h]⟩
  omega

theorem rank_lt_of_lt {live : Finset Nat} {j k : Nat} (hj : j ∈ live) (h : j < k) :
    rank live j < rank live k := by
  unfold rank
  apply Finset.card_lt_card
  refine Finset.ssubset_iff_subset_ne.mpr ⟨?_, fun e => ?_⟩
  · intro x hx
    simp only [Finset.mem_filter] at hx ⊢
    exact ⟨hx.1, by omega⟩
  · have : j ∈ live.filter (fun x => x < k) := by simp [hj, h]
    rw [← e] at this
    simp at this

theorem full_of_card {live : Finset Nat} {n : Nat} (h : ∀ k ∈ live, 1 ≤ k ∧ k ≤ n)
    (hc : live.card = n) : live = Finset.Icc 1 n := by
  apply Finset.eq_of_subset_of_card_le
  · intro k hk; simp [h k hk]
  · simp [hc]

theorem rank_Icc {n k : Nat} (hk : k ≤ n + 1) : rank (Finset.Icc 1 n) k = k - 1 := by
  unfold rank
  have : (Finset.Icc 1 n).filter (fun j => j < k) = Finset.Icc 1 (k - 1) := by
    ext x; simp only [Finset.mem_filter, Finset.mem_Icc]; omega
  rw [this]; simp

/-! ## One call of `table_delete` -/

/-- Deleting the record at physical position `c`. -/
theorem table_delete_at (pt : Table) (k c : Nat)
    (hblk : ok_block pt.slots (pt.number_of_slots * pt.record_size))
    (hk : 1 ≤ k) (hka : k ≤ pt.auto_increment) (ha : pt.auto_increment ≤ pt.number_of_slots)
    (hc : c < pt.number_of_records) (hr : pt.number_of_records ≤ pt.number_of_slots)
    (hidx : pt.index (k - 1) = pt.slots + c * pt.record_size) :
    ∃ pt1, table_delete pt k = some (pt1,
        if pt.number_of_records - 1 > 0 then pt.slots + c * pt.record_size else 0) ∧
      pt1.flags = pt.flags ∧ pt1.record_size = pt.record_size ∧
      pt1.number_of_slots = pt.number_of_slots ∧
      pt1.number_of_records = pt.number_of_records - 1 ∧
      pt1.auto_increment = pt.auto_increment ∧ pt1.slots = pt.slots ∧
      (∀ i, pt1.index i = if i = k - 1 then 0
        else if k ≤ i ∧ i < pt.auto_increment then psub (pt.index i) pt.record_size
        else pt.index i) ∧
      (∀ o, pt1.bytes o =
        if c * pt.record_size ≤ o ∧ o < (pt.number_of_records - 1) * pt.record_size
          then pt.bytes (o + pt.record_size)
        else if (pt.number_of_records - 1) * pt.record_size ≤ o ∧
            o < pt.number_of_records * pt.record_size then 0
        else pt.bytes o) := by
  obtain ⟨fl, rs, S, R, A, b, bytes, index⟩ := pt
  simp only at hblk hka ha hc hr hidx ⊢
  obtain ⟨hb0, hb1⟩ := hblk
  have e1 : (R - 1) * rs + rs = R * rs := by
    have : R = (R - 1) + 1 := by omega
    conv_rhs => rw [this, Nat.succ_mul]
  have e2 : c * rs ≤ (R - 1) * rs := Nat.mul_le_mul_right _ (by omega)
  have e3 : R * rs ≤ S * rs := Nat.mul_le_mul_right _ hr
  have hn : psub (b + (R - 1) * rs) (b + c * rs) = (R - 1) * rs - c * rs := by
    rw [psub_of_le (by omega) (by omega)]; omega
  have hsrc : w64 (b + c * rs + rs) = b + c * rs + rs := w64_of_lt (by omega)
  have hne : b + c * rs ≠ 0 := by omega
  simp only [table_delete, table_find, table_last_record, table_available_slot, in_slots]
  rw [if_neg (by omega), if_pos (by omega), hidx]
  simp only [if_neg hne, if_neg (show R ≠ 0 by omega)]
  rw [w64_of_lt (by omega), psub_of_le (by omega) (by omega)]
  have hl : b + R * rs - rs = b + (R - 1) * rs := by omega
  simp only [hl, hn, hsrc]
  rw [if_neg, if_neg, if_neg]
  · refine ⟨_, rfl, rfl, rfl, rfl, rfl, rfl, rfl, fun i => rfl, fun o => ?_⟩
    by_cases hpl : b + c * rs = b + (R - 1) * rs
    · simp only [hpl, ne_eq, not_true_eq_false, if_false, memset0, memmove_in]
      split_ifs <;> first | rfl | omega
    · simp only [ne_eq, hpl, not_false_eq_true, if_true, memset0, memmove_in]
      split_ifs <;> first | rfl | omega | (congr 1; omega)
  · omega
  · simp only [decide_eq_false_iff_not]; omega
  · simp only [decide_eq_false_iff_not]; omega

theorem succ_mul_le {a b : Nat} (rs : Nat) (h : a < b) : a * rs + rs ≤ b * rs := by
  calc a * rs + rs = (a + 1) * rs := (Nat.succ_mul a rs).symm
    _ ≤ b * rs := Nat.mul_le_mul_right rs h

/-- Deleting a live identity keeps the invariants for the remaining live identities. -/
theorem inv_delete_live {live : Finset Nat} {pt : Table} (hinv : Inv live pt) {k : Nat}
    (hk : k ∈ live) :
    ∃ pt1, table_delete pt k = some (pt1,
        if pt.number_of_records - 1 > 0 then pt.slots + rank live k * pt.record_size else 0) ∧
      Inv (live.erase k) pt1 ∧
      pt1.flags = pt.flags ∧ pt1.record_size = pt.record_size ∧
      pt1.number_of_slots = pt.number_of_slots ∧
      pt1.number_of_records + 1 = pt.number_of_records ∧
      pt1.auto_increment = pt.auto_increment ∧ pt1.slots = pt.slots ∧
      pt1.index (k - 1) = 0 ∧
      (∀ content, Stored live content pt → Stored (live.erase k) content pt1) ∧
      (∀ j ∈ live.erase k, ∀ o, o < pt.record_size →
        pt1.bytes (rank (live.erase k) j * pt.record_size + o)
          = pt.bytes (rank live j * pt.record_size + o)) ∧
      (∀ i, i < k - 1 → pt1.index i = pt.index i) := by
  have hR := rank_lt_card hk
  have hids := hinv.ids k hk
  have hcnt := hinv.count
  have hal := hinv.auto_le
  have hcard : live.card ≤ pt.auto_increment := by
    have : live ⊆ Finset.Icc 1 pt.auto_increment := fun j hj => by
      simp [hinv.ids j hj]
    simpa using Finset.card_le_card this
  obtain ⟨pt1, hdel, hfl, hrs, hS, hR1, hA, hb, hidx, hbytes⟩ :=
    table_delete_at pt k (rank live k) hinv.block hids.1 hids.2 hal (by omega) (by omega)
      (hinv.live_at k hk)
  obtain ⟨hb0, hb1⟩ := hinv.block
  have m1 : pt.number_of_records * pt.record_size ≤ pt.number_of_slots * pt.record_size :=
    Nat.mul_le_mul_right _ (by omega)
  have m2 : (pt.auto_increment - pt.number_of_records) * pt.record_size
      ≤ pt.number_of_slots * pt.record_size := Nat.mul_le_mul_right _ (by omega)
  have m3 : (pt.auto_increment - (pt.number_of_records - 1)) * pt.record_size
      = (pt.auto_increment - pt.number_of_records) * pt.record_size + pt.record_size := by
    have : pt.auto_increment - (pt.number_of_records - 1)
        = (pt.auto_increment - pt.number_of_records) + 1 := by omega
    rw [this, Nat.succ_mul]
  have m4 : pt.record_size ≤ pt.number_of_slots * pt.record_size :=
    Nat.le_mul_of_pos_left _ (by omega)
  have m5 : (pt.number_of_records - 1) * pt.record_size + pt.record_size
      = pt.number_of_records * pt.record_size := by
    have : pt.number_of_records = (pt.number_of_records - 1) + 1 := by omega
    conv_rhs => rw [this, Nat.succ_mul]
  have m6 := succ_mul_le pt.record_size (show rank live k < pt.number_of_records by omega)
  have hmove : ∀ j ∈ live.erase k, ∀ o, o < pt.record_size →
      pt1.bytes (rank (live.erase k) j * pt.record_size + o)
        = pt.bytes (rank live j * pt.record_size + o) := by
    intro j hj o ho
    have hjl := Finset.mem_of_mem_erase hj
    have hjk := Finset.ne_of_mem_erase hj
    have hjR := rank_lt_card hjl
    rw [hbytes]
    by_cases hlt : k < j
    · have e := rank_erase_of_lt hk hlt
      have e3 : rank live j * pt.record_size
          = rank (live.erase k) j * pt.record_size + pt.record_size := by
        rw [← e, Nat.succ_mul]
      have e4 := Nat.mul_le_mul_right pt.record_size
        (show rank live k ≤ rank (live.erase k) j by
          have := rank_lt_of_lt hk hlt; omega)
      have e5 := succ_mul_le pt.record_size
        (show rank (live.erase k) j < pt.number_of_records - 1 by omega)
      rw [if_pos (by omega)]
      congr 1; omega
    · have hlt2 : j < k := by omega
      rw [rank_erase_of_le (by omega)]
      have e4 := succ_mul_le pt.record_size (rank_lt_of_lt hjl hlt2)
      rw [if_neg (by omega), if_neg (by omega)]
  refine ⟨pt1, hdel, ?_, hfl, hrs, hS, by omega, hA, hb, by rw [hidx]; simp, ?_, hmove,
    fun i hi => by rw [hidx, if_neg (by omega), if_neg (by omega)]⟩
  · constructor
    · rw [hb, hS, hrs]; exact ⟨hb0, hb1⟩
    · omega
    · intro j hj
      rw [hA]; exact hinv.ids j (Finset.mem_of_mem_erase hj)
    · rw [hR1, Finset.card_erase_of_mem hk, hcnt]
    · intro j hj
      have hjl := Finset.mem_of_mem_erase hj
      have hjk := Finset.ne_of_mem_erase hj
      have hj1 := hinv.ids j hjl
      have hji := hinv.live_at j hjl
      rw [hidx, hb, hrs, if_neg (by omega)]
      by_cases hlt : k < j
      · rw [if_pos (by omega), hji]
        have e := rank_erase_of_lt hk hlt
        have e1 := succ_mul_le pt.record_size (show rank (live.erase k) j < rank live j by omega)
        have e2 := Nat.mul_le_mul_right pt.record_size
          (show rank live j ≤ pt.number_of_records by have := rank_lt_card hjl; omega)
        have e3 : rank live j * pt.record_size
            = rank (live.erase k) j * pt.record_size + pt.record_size := by
          rw [← e, Nat.succ_mul]
        rw [psub_of_le (by omega) (by omega)]; omega
      · rw [if_neg (by omega), hji, rank_erase_of_le (by omega)]
    · intro j hj1 hj2 hj
      rw [hidx, hA, hR1, hrs]
      by_cases hjk : j = k
      · left; rw [if_pos (by omega)]
      · have hjl : j ∉ live := fun h => hj (Finset.mem_erase.mpr ⟨hjk, h⟩)
        rw [hA] at hj2
        have hd := hinv.dead_at j hj1 hj2 hjl
        rw [if_neg (by omega)]
        by_cases hlt : k < j
        · rw [if_pos (by omega)]
          rcases hd with h0 | ⟨h1, h2⟩
          · rw [h0]
            by_cases hz : pt.record_size = 0
            · left; rw [hz]; rfl
            · right; unfold psub; omega
          · right; rw [psub_of_le (by omega) h2]; omega
        · rw [if_neg (by omega)]
          rcases hd with h0 | ⟨h1, h2⟩
          · left; exact h0
          · right; omega
  · intro content hst
    constructor
    · intro j hj o ho
      rw [hrs] at ho ⊢
      rw [hmove j hj o ho]
      exact hst.rec_at j (Finset.mem_of_mem_erase hj) o ho
    · intro o ho1 ho2
      rw [hR1, hrs] at ho1
      rw [hS, hrs] at ho2
      rw [hbytes, if_neg (by omega)]
      by_cases hz : o < pt.number_of_records * pt.record_size
      · rw [if_pos (by omega)]
      · rw [if_neg (by omega)]
        exact hst.zero_tail o (by omega) ho2

/-- A delete of an identity that is not live changes nothing, if it returns. -/
theorem delete_dead {live : Finset Nat} {pt : Table} (hinv : Inv live pt) {k : Nat}
    (hk : k ∉ live) {pt1 : Table} {p : Nat} (h : table_delete pt k = some (pt1, p)) :
    pt1 = pt ∧ p = 0 := by
  have hcnt := hinv.count
  have hal := hinv.auto_le
  obtain ⟨hb0, hb1⟩ := hinv.block
  have hcard : live.card ≤ pt.auto_increment := by
    have : live ⊆ Finset.Icc 1 pt.auto_increment := fun j hj => by
      simp [hinv.ids j hj]
    simpa using Finset.card_le_card this
  unfold table_delete table_find at h
  by_cases hc : pt.number_of_records = 0 ∨ k = 0 ∨ k > pt.auto_increment
  · rw [if_pos hc] at h
    simp only [if_true] at h
    injection h with h; injection h with h1 h2
    exact ⟨h1.symm, h2.symm⟩
  · rw [if_neg hc, if_pos (by omega)] at h
    simp only at h
    rcases hinv.dead_at k (by omega) (by omega) hk with h0 | ⟨h1, h2⟩
    · rw [if_pos h0] at h
      injection h with h; injection h with h1 h2
      exact ⟨h1.symm, h2.symm⟩
    · exfalso
      have m1 := Nat.mul_le_mul_right pt.record_size
        (show pt.number_of_records ≤ pt.number_of_slots by omega)
      have m2 := Nat.mul_le_mul_right pt.record_size
        (show pt.auto_increment - pt.number_of_records ≤ pt.number_of_slots by omega)
      have m5 : (pt.number_of_records - 1) * pt.record_size + pt.record_size
          = pt.number_of_records * pt.record_size := by
        have : pt.number_of_records = (pt.number_of_records - 1) + 1 := by omega
        conv_rhs => rw [this, Nat.succ_mul]
      have hrs : 0 < pt.record_size := by
        rcases Nat.eq_zero_or_pos pt.record_size with hz | hz
        · rw [hz] at h1; omega
        · exact hz
      have hlast : table_last_record pt
          = pt.slots + (pt.number_of_records - 1) * pt.record_size := by
        unfold table_last_record table_available_slot
        rw [if_neg (by omega), w64_of_lt (by omega), psub_of_le (by omega) (by omega)]
        omega
      rw [if_neg (by omega), hlast] at h
      have hne : pt.index (k - 1) ≠ pt.slots + (pt.number_of_records - 1) * pt.record_size := by
        omega
      have hin : in_slots pt (pt.index (k - 1))
          (psub (pt.slots + (pt.number_of_records - 1) * pt.record_size) (pt.index (k - 1)))
          = false := by
        simp only [in_slots, decide_eq_false_iff_not]
        unfold psub; omega
      rw [if_pos ⟨hne, Or.inl hin⟩] at h
      exact absurd h (by simp)

/-! ## One call of `table_extend` and of `table_insert` -/

/-- The table after `table_extend`, when the counters are within the capacity. -/
theorem table_extend_at (pt : Table) (env : Env)
    (hr : pt.number_of_records ≤ pt.number_of_slots)
    (ha : pt.auto_increment ≤ pt.number_of_slots)
    (henv : ok_block env.slots ((pt.number_of_slots + TABLE_INCREMENT) * pt.record_size)) :
    ∃ t, table_extend pt env = some t ∧
      t.flags = pt.flags ∧ t.record_size = pt.record_size ∧
      t.number_of_slots = pt.number_of_slots + 5 ∧
      t.number_of_records = pt.number_of_records ∧
      t.auto_increment = pt.auto_increment ∧ t.slots = env.slots ∧
      (∀ i, i < pt.auto_increment →
        t.index i = if pt.index i ≠ 0 then env.slots + i * pt.record_size else 0) ∧
      (∀ i, pt.auto_increment ≤ i → i < pt.auto_increment + 5 → t.index i = 0) ∧
      (∀ i, pt.auto_increment + 5 ≤ i →
        t.index i = if i < pt.number_of_slots then pt.index i else env.ifresh i) ∧
      (∀ o, t.bytes o =
        if pt.number_of_records * pt.record_size ≤ o ∧
            o < pt.number_of_records * pt.record_size + 5 * pt.record_size then 0
        else if o < pt.number_of_slots * pt.record_size then pt.bytes o else env.fresh o) := by
  obtain ⟨fl, rs, S, R, A, b, bytes, index⟩ := pt
  simp only [TABLE_INCREMENT] at hr ha henv ⊢
  obtain ⟨hb0, hb1⟩ := henv
  have e1 : (S + 5) * rs = S * rs + 5 * rs := Nat.add_mul S 5 rs
  have e2 : R * rs ≤ S * rs := Nat.mul_le_mul_right _ hr
  simp only [table_extend, table_available_slot, table_available_index, in_slots,
    TABLE_INCREMENT]
  have hw : w64 (env.slots + R * rs) = env.slots + R * rs := w64_of_lt (by omega)
  simp only [hw]
  rw [if_neg, if_neg (by omega)]
  · refine ⟨_, rfl, rfl, rfl, rfl, rfl, rfl, rfl, fun i hi => ?_, fun i h1 h2 => ?_, fun i hi => ?_,
      fun o => ?_⟩
    · have e3 : i * rs ≤ S * rs := Nat.mul_le_mul_right _ (by omega)
      have h2 : memset0 (fun i => if i < S then index i else env.ifresh i) A 5 i = index i := by
        simp only [memset0]
        rw [if_neg (by omega), if_pos (by omega)]
      simp only [h2]
      by_cases hz : index i = 0
      · simp [hz]
      · rw [if_pos ⟨hi, hz⟩, if_pos hz, w64_of_lt (by omega)]
    · simp only [memset0]
      rw [if_neg (by omega), if_pos (by omega)]
    · simp only [memset0]
      rw [if_neg (by omega), if_neg (by omega)]
    · simp only [memset0]
      have : env.slots + R * rs - env.slots = R * rs := by omega
      rw [this]
  · simp only [decide_eq_false_iff_not]; omega

/-- What a call of `table_insert` that needs no growth and returns does to the counters
and to the index. -/
theorem table_insert_inv (pt : Table) (record : Nat → Nat) (env : Env)
    (hr : pt.number_of_records < pt.number_of_slots) {pt1 : Table} {p : Nat}
    (h : table_insert pt record env = some (pt1, p)) :
    pt.auto_increment < pt.number_of_slots ∧ p = table_available_slot pt ∧
      pt1.flags = pt.flags ∧ pt1.record_size = pt.record_size ∧
      pt1.number_of_slots = pt.number_of_slots ∧
      pt1.number_of_records = pt.number_of_records + 1 ∧
      pt1.auto_increment = pt.auto_increment + 1 ∧ pt1.slots = pt.slots ∧
      (∀ i, pt1.index i = if i = pt.auto_increment then p else pt.index i) := by
  unfold table_insert at h
  rw [if_neg (by omega)] at h
  simp only [table_available_index] at h
  split_ifs at h
  all_goals
    injection h with h; injection h with h1 h2
    subst h1; subst h2
    exact ⟨by omega, rfl, rfl, rfl, rfl, rfl, rfl, rfl, fun i => rfl⟩

/-- A call of `table_insert` on a full table is a call on the extended table. -/
theorem table_insert_grow (pt : Table) (record : Nat → Nat) (env : Env)
    (hr : pt.number_of_slots ≤ pt.number_of_records) {t : Table}
    (ht : table_extend pt env = some t) (hlt : t.number_of_records < t.number_of_slots) :
    table_insert pt record env = table_insert t record env := by
  unfold table_insert
  rw [if_pos (by omega), ht, if_neg (by omega)]

/-- A call of `table_insert` that needs no growth returns when the index has a free entry
and the stamped fields fit in the record; the new slot then holds the stamped record and
no other byte changes. -/
theorem table_insert_at (pt : Table) (record : Nat → Nat) (env : Env)
    (hblk : ok_block pt.slots (pt.number_of_slots * pt.record_size))
    (hr : pt.number_of_records < pt.number_of_slots)
    (ha : pt.auto_increment < pt.number_of_slots)
    (hfit : fits pt.flags pt.record_size) :
    ∃ pt1, table_insert pt record env
        = some (pt1, pt.slots + pt.number_of_records * pt.record_size) ∧
      (∀ o, pt1.bytes o =
        if pt.number_of_records * pt.record_size ≤ o ∧
            o < pt.number_of_records * pt.record_size + pt.record_size
        then stamp pt.flags pt.record_size record (pt.auto_increment + 1) env.now
          (o - pt.number_of_records * pt.record_size)
        else pt.bytes o) := by
  obtain ⟨hb0, hb1⟩ := hblk
  obtain ⟨f1, f2, f3⟩ := hfit
  have e1 := succ_mul_le pt.record_size hr
  have hw : w64 (pt.slots + pt.number_of_records * pt.record_size)
      = pt.slots + pt.number_of_records * pt.record_size := w64_of_lt (by omega)
  have hw2 : w64 (pt.slots + pt.number_of_records * pt.record_size + pt.record_size)
      = pt.slots + pt.number_of_records * pt.record_size + pt.record_size :=
    w64_of_lt (by omega)
  have hin0 : in_slots pt (pt.slots + pt.number_of_records * pt.record_size) pt.record_size
      = true := by
    simp only [in_slots, decide_eq_true_eq]; omega
  have hin1 : pt.flags &&& TABLE_HAS_ID ≠ 0 →
      in_slots pt (pt.slots + pt.number_of_records * pt.record_size) 8 = true := by
    intro h; have := f1 h
    simp only [in_slots, decide_eq_true_eq]; omega
  have hp1 : pt.flags &&& TABLE_HAS_CREATED_AT ≠ 0 ∨ pt.flags &&& TABLE_HAS_UPDATED_AT ≠ 0 →
      psub (pt.slots + pt.number_of_records * pt.record_size + pt.record_size) 8
        = pt.slots + (pt.number_of_records * pt.record_size + (pt.record_size - 8)) := by
    intro h; have := f2 h
    rw [psub_of_le (by omega) (by omega)]; omega
  have hp2 : pt.flags &&& TABLE_HAS_CREATED_AT ≠ 0 ∧ pt.flags &&& TABLE_HAS_UPDATED_AT ≠ 0 →
      psub (pt.slots + pt.number_of_records * pt.record_size + pt.record_size) 16
        = pt.slots + (pt.number_of_records * pt.record_size + (pt.record_size - 16)) := by
    intro h; have := f3 h
    rw [psub_of_le (by omega) (by omega)]; omega
  have hin8 : ∀ d, d + 8 ≤ pt.record_size →
      in_slots pt (pt.slots + (pt.number_of_records * pt.record_size + d)) 8 = true := by
    intro d hd
    simp only [in_slots, decide_eq_true_eq]; omega
  unfold table_insert
  rw [if_neg (by omega)]
  simp only [table_available_slot, table_available_index, hw, hw2, hin0]
  rw [if_neg (by omega)]
  simp only [Bool.true_eq_false, if_false, Nat.add_sub_cancel_left]
  by_cases h1 : pt.flags &&& TABLE_HAS_ID ≠ 0 <;>
  by_cases h2 : pt.flags &&& TABLE_HAS_CREATED_AT ≠ 0 <;>
  by_cases h3 : pt.flags &&& TABLE_HAS_UPDATED_AT ≠ 0
  all_goals
    have g1 := f1
    have g2 := f2
    have g3 := f3
    have q1 := hin1
    have q2 := hp1
    have q3 := hp2
    simp only [h1, h2, h3, not_true_eq_false, not_false_eq_true, or_true, true_or, or_self,
      and_self, and_true, true_and, false_and, and_false, forall_true_left, ne_eq,
      false_implies, true_implies, imp_false, if_true, if_false, or_false, false_or]
      at g1 g2 g3 q1 q2 q3
    simp only [h1, h2, h3, not_true_eq_false, not_false_eq_true, or_true, true_or, or_self,
      and_self, and_true, true_and, false_and, and_false, ne_eq, if_true, if_false, or_false,
      false_or, stamp]
    try rw [q1]
    try rw [q2, hin8 (pt.record_size - 8) (by omega)]
    try rw [q3, hin8 (pt.record_size - 16) (by omega)]
    try simp only [Bool.true_eq_false, if_false, Nat.add_sub_cancel_left]
    refine ⟨_, rfl, fun o => ?_⟩
    simp only [write_u64, memmove_from]
    all_goals (split_ifs <;> first | omega | exact congrArg (le_byte _) (by omega))

theorem card_le_auto {live : Finset Nat} {pt : Table} (hinv : Inv live pt) :
    live.card ≤ pt.auto_increment := by
  have : live ⊆ Finset.Icc 1 pt.auto_increment := fun j hj => by
    simp [hinv.ids j hj]
  simpa using Finset.card_le_card this

theorem rank_eq_card {live : Finset Nat} {n : Nat} (h : ∀ k ∈ live, k < n) :
    rank live n = live.card := by
  unfold rank
  rw [Finset.filter_true_of_mem h]

/-- Growth of a full table keeps the invariants. -/
theorem inv_extend {live : Finset Nat} {pt : Table} (hinv : Inv live pt) (env : Env)
    (hr : pt.number_of_slots ≤ pt.number_of_records)
    (henv : ok_block env.slots ((pt.number_of_slots + TABLE_INCREMENT) * pt.record_size)) :
    ∃ t, table_extend pt env = some t ∧ Inv live t ∧
      t.flags = pt.flags ∧ t.record_size = pt.record_size ∧
      t.number_of_slots = pt.number_of_slots + 5 ∧
      t.number_of_records = pt.number_of_records ∧
      t.auto_increment = pt.auto_increment ∧ t.slots = env.slots ∧
      (∀ content, Stored live content pt → Stored live content t) := by
  have hcard := card_le_auto hinv
  have hcnt := hinv.count
  have hal := hinv.auto_le
  have hfull : live = Finset.Icc 1 pt.auto_increment := full_of_card hinv.ids (by omega)
  obtain ⟨t, ht, hfl, hrs, hS, hR, hA, hb, hi1, _, _, hbytes⟩ :=
    table_extend_at pt env (by omega) hal henv
  have henv2 := henv
  obtain ⟨hb0, hb1⟩ := hinv.block
  simp only [TABLE_INCREMENT] at henv2
  have e1 : (pt.number_of_slots + 5) * pt.record_size
      = pt.number_of_slots * pt.record_size + 5 * pt.record_size := Nat.add_mul _ 5 _
  have e2 : pt.number_of_records * pt.record_size = pt.number_of_slots * pt.record_size := by
    have : pt.number_of_records = pt.number_of_slots := by omega
    rw [this]
  refine ⟨t, ht, ?_, hfl, hrs, hS, hR, hA, hb, ?_⟩
  · constructor
    · rw [hb, hS, hrs]; exact henv2
    · omega
    · intro k hk; rw [hA]; exact hinv.ids k hk
    · rw [hR, hcnt]
    · intro k hk
      have hk1 := hinv.ids k hk
      have hlive := hinv.live_at k hk
      have hrk : rank live k = k - 1 := by
        rw [hfull]; exact rank_Icc (by omega)
      rw [hi1 (k - 1) (by omega), if_pos (by omega), hb, hrs, hrk]
    · intro k hk1 hk2 hk
      rw [hA] at hk2
      exact absurd (by rw [hfull]; simp; omega) hk
  · intro content hst
    constructor
    · intro k hk o ho
      have hR := rank_lt_card hk
      have e3 := succ_mul_le pt.record_size (show rank live k < pt.number_of_records by omega)
      rw [hrs] at ho ⊢
      rw [hbytes, if_neg (by omega), if_pos (by omega)]
      exact hst.rec_at k hk o ho
    · intro o ho1 ho2
      rw [hR, hrs] at ho1
      rw [hS, hrs] at ho2
      rw [hbytes, if_pos (by omega)]

/-- An insert that needs no growth keeps the invariants for the live identities and the
new one. -/
theorem inv_insert_nogrow {live : Finset Nat} {pt : Table} (hinv : Inv live pt)
    (record : Nat → Nat) (env : Env) (hr : pt.number_of_records < pt.number_of_slots)
    {pt1 : Table} {p : Nat} (h : table_insert pt record env = some (pt1, p)) :
    Inv (insert pt1.auto_increment live) pt1 ∧
      p = pt.slots + pt.number_of_records * pt.record_size ∧
      pt1.flags = pt.flags ∧ pt1.record_size = pt.record_size ∧
      pt1.number_of_slots = pt.number_of_slots ∧
      pt1.number_of_records = pt.number_of_records + 1 ∧
      pt1.auto_increment = pt.auto_increment + 1 ∧ pt1.slots = pt.slots ∧
      (fits pt.flags pt.record_size → ∀ content, Stored live content pt →
        Stored (insert pt1.auto_increment live)
          (Function.update content pt1.auto_increment
            (stamp pt.flags pt.record_size record pt1.auto_increment env.now)) pt1) := by
  have hcard := card_le_auto hinv
  have hcnt := hinv.count
  obtain ⟨hb0, hb1⟩ := hinv.block
  obtain ⟨ha, hp, hfl, hrs, hS, hR, hA, hb, hidx⟩ := table_insert_inv pt record env hr h
  have e1 := succ_mul_le pt.record_size hr
  have hw : w64 (pt.slots + pt.number_of_records * pt.record_size)
      = pt.slots + pt.number_of_records * pt.record_size := w64_of_lt (by omega)
  have hp' : p = pt.slots + pt.number_of_records * pt.record_size := by
    rw [hp, table_available_slot, hw]
  have hnew : pt.auto_increment + 1 ∉ live := fun hmem => by
    have := hinv.ids _ hmem; omega
  have hrknew : rank live (pt.auto_increment + 1) = pt.number_of_records := by
    rw [rank_eq_card (fun k hk => by have := hinv.ids k hk; omega), hcnt]
  refine ⟨?_, hp', hfl, hrs, hS, hR, hA, hb, ?_⟩
  · rw [hA]
    constructor
    · rw [hb, hS, hrs]; exact ⟨hb0, hb1⟩
    · omega
    · intro k hk
      rcases Finset.mem_insert.mp hk with rfl | hk
      · omega
      · have := hinv.ids k hk; omega
    · rw [hR, Finset.card_insert_of_not_mem hnew, hcnt]
    · intro k hk
      have hk2 : k ≤ pt.auto_increment + 1 := by
        rcases Finset.mem_insert.mp hk with rfl | hk
        · omega
        · have := hinv.ids k hk; omega
      rw [rank_insert_of_le hk2, hidx, hb, hrs]
      rcases Finset.mem_insert.mp hk with rfl | hk
      · rw [if_pos (by omega), hp', hrknew]
      · have := hinv.ids k hk
        rw [if_neg (by omega)]
        exact hinv.live_at k hk
    · intro k hk1 hk2 hk
      rw [Finset.mem_insert, not_or] at hk
      have hd := hinv.dead_at k hk1 (by omega) hk.2
      rw [hidx, if_neg (by omega), hR, hrs, hA]
      have : pt.auto_increment + 1 - (pt.number_of_records + 1)
          = pt.auto_increment - pt.number_of_records := by omega
      rw [this]; exact hd
  · intro hfit content hst
    obtain ⟨pt2, h2, hbytes⟩ := table_insert_at pt record env hinv.block hr ha hfit
    rw [h] at h2
    injection h2 with h2; injection h2 with h2 _
    subst h2
    rw [hA]
    constructor
    · intro k hk o ho
      have hk2 : k ≤ pt.auto_increment + 1 := by
        rcases Finset.mem_insert.mp hk with rfl | hk
        · omega
        · have := hinv.ids k hk; omega
      rw [hrs] at ho ⊢
      rw [rank_insert_of_le hk2, hbytes]
      rcases Finset.mem_insert.mp hk with rfl | hk
      · rw [hrknew, if_pos (by omega), Function.update_same]
        congr 1; omega
      · have hk3 := hinv.ids k hk
        have hRk := rank_lt_card hk
        have e3 := succ_mul_le pt.record_size
          (show rank live k < pt.number_of_records by omega)
        rw [if_neg (by omega), Function.update_noteq (by omega)]
        exact hst.rec_at k hk o ho
    · intro o ho1 ho2
      rw [hR, hrs] at ho1
      rw [hS, hrs] at ho2
      have e4 : (pt.number_of_records + 1) * pt.record_size
          = pt.number_of_records * pt.record_size + pt.record_size := Nat.succ_mul _ _
      rw [hbytes, if_neg (by omega)]
      exact hst.zero_tail o (by omega) ho2

/-- An insert that returns keeps the invariants for the live identities and the new one,
with or without growth. -/
theorem inv_insert {live : Finset Nat} {pt : Table} (hinv : Inv live pt)
    (record : Nat → Nat) (env : Env)
    (halloc : pt.number_of_slots ≤ pt.number_of_records →
      ok_block env.slots ((pt.number_of_slots + TABLE_INCREMENT) * pt.record_size))
    {pt1 : Table} {p : Nat} (h : table_insert pt record env = some (pt1, p)) :
    Inv (insert pt1.auto_increment live) pt1 ∧
      p = pt1.slots + pt.number_of_records * pt.record_size ∧
      pt1.flags = pt.flags ∧ pt1.record_size = pt.record_size ∧
      pt1.number_of_slots = (if pt.number_of_slots ≤ pt.number_of_records
        then pt.number_of_slots + 5 else pt.number_of_slots) ∧
      pt1.number_of_records = pt.number_of_records + 1 ∧
      pt1.auto_increment = pt.auto_increment + 1 ∧
      (fits pt.flags pt.record_size → ∀ content, Stored live content pt →
        Stored (insert pt1.auto_increment live)
          (Function.update content pt1.auto_increment
            (stamp pt.flags pt.record_size record pt1.auto_increment env.now)) pt1) := by
  by_cases hr : pt.number_of_slots ≤ pt.number_of_records
  · obtain ⟨t, ht, hinvt, hfl, hrs, hS, hR, hA, hb, hst⟩ := inv_extend hinv env hr (halloc hr)
    have hcard := card_le_auto hinv
    have hcnt := hinv.count
    have hal := hinv.auto_le
    have hlt : t.number_of_records < t.number_of_slots := by omega
    rw [table_insert_grow pt record env hr ht hlt] at h
    obtain ⟨i1, i2, i3, i4, i5, i6, i7, i8, i9⟩ := inv_insert_nogrow hinvt record env hlt h
    refine ⟨i1, ?_, ?_, ?_, ?_, ?_, ?_, ?_⟩
    · rw [i2, i8, hR, hrs]
    · rw [i3, hfl]
    · rw [i4, hrs]
    · rw [i5, hS, if_pos hr]
    · rw [i6, hR]
    · rw [i7, hA]
    · intro hfit content hc
      rw [← hfl, ← hrs]
      exact i9 (by rw [hfl, hrs]; exact hfit) content (hst content hc)
  · have hlt : pt.number_of_records < pt.number_of_slots := by omega
    obtain ⟨i1, i2, i3, i4, i5, i6, i7, i8, i9⟩ := inv_insert_nogrow hinv record env hlt h
    exact ⟨i1, by rw [i2, i8], i3, i4, by rw [i5, if_neg hr], i6, i7, i9⟩

/-- An insert returns when the index has a free entry after the growth, the allocator
answers with a block and the stamped fields fit in the record. -/
theorem insert_total {live : Finset Nat} {pt : Table} (hinv : Inv live pt)
    (record : Nat → Nat) (env : Env)
    (halloc : pt.number_of_slots ≤ pt.number_of_records →
      ok_block env.slots ((pt.number_of_slots + TABLE_INCREMENT) * pt.record_size))
    (hfit : fits pt.flags pt.record_size)
    (hroom : pt.number_of_records < pt.number_of_slots →
      pt.auto_increment < pt.number_of_slots) :
    ∃ pt1 p, table_insert pt record env = some (pt1, p) := by
  by_cases hr : pt.number_of_slots ≤ pt.number_of_records
  · obtain ⟨t, ht, hinvt, hfl, hrs, hS, hR, hA, hb, hst⟩ := inv_extend hinv env hr (halloc hr)
    have hcard := card_le_auto hinv
    have hcnt := hinv.count
    have hal := hinv.auto_le
    have hlt : t.number_of_records < t.number_of_slots := by omega
    rw [table_insert_grow pt record env hr ht hlt]
    obtain ⟨pt1, h1, _⟩ := table_insert_at t record env hinvt.block hlt (by omega)
      (by rw [hfl, hrs]; exact hfit)
    exact ⟨pt1, _, h1⟩
  · have hlt : pt.number_of_records < pt.number_of_slots := by omega
    obtain ⟨pt1, h1, _⟩ := table_insert_at pt record env hinv.block hlt (hroom hlt) hfit
    exact ⟨pt1, _, h1⟩

theorem inv_fresh (record_size flags a : Nat)
    (h : ok_block a (TABLE_INCREMENT * record_size)) :
    Inv ∅ ( table_initialize record_size flags a) ∧
      Stored ∅ (fun _ _ => 0) ( table_initialize record_size flags a) := by
  refine ⟨⟨h, ?_, ?_, ?_, ?_, ?_⟩, ⟨?_, ?_⟩⟩
  · simp [ table_initialize, TABLE_INCREMENT]
  · intro k hk; simp at hk
  · simp [ table_initialize]
  · intro k hk; simp at hk
  · intro k _ _ _; left; rfl
  · intro k hk; simp at hk
  · intro o _ _; rfl

/-- Every reachable table satisfies the index invariant, keeps the flags and the record
size of its creation, and satisfies the content invariant when the stamped fields fit in
the record. -/
theorem reach_inv {record_size flags : Nat} {live : Finset Nat} {content : Nat → Nat → Nat}
    {pt : Table} (h : Reach record_size flags live content pt) :
    Inv live pt ∧ pt.flags = flags ||| TABLE_HAS_ID ∧ pt.record_size = record_size ∧
      (fits (flags ||| TABLE_HAS_ID) record_size → Stored live content pt) := by
  induction h with
  | init a h =>
    exact ⟨(inv_fresh record_size flags a h).1, rfl, rfl,
      fun _ => (inv_fresh record_size flags a h).2⟩
  | @step_insert live content pt pt1 p record env _ halloc hcall ih =>
    obtain ⟨hinv, hfl, hrs, hst⟩ := ih
    obtain ⟨i1, _, i3, i4, _, _, _, i8⟩ :=
      inv_insert hinv record env (by rw [hrs]; exact halloc) hcall
    refine ⟨i1, by rw [i3, hfl], by rw [i4, hrs], fun hfit => ?_⟩
    have := i8 (by rw [hfl, hrs]; exact hfit) content (hst hfit)
    rw [hrs] at this
    exact this
  | @step_delete live content pt pt1 p id _ hcall ih =>
    obtain ⟨hinv, hfl, hrs, hst⟩ := ih
    by_cases hid : id ∈ live
    · obtain ⟨pt2, h2, j1, j2, j3, _, _, _, _, _, j9, _, _⟩ := inv_delete_live hinv hid
      rw [hcall] at h2
      injection h2 with h2; injection h2 with h2 _
      subst h2
      exact ⟨j1, by rw [j2, hfl], by rw [j3, hrs], fun hfit => j9 content (hst hfit)⟩
    · obtain ⟨rfl, _⟩ := delete_dead hinv hid hcall
      rw [Finset.erase_eq_of_not_mem hid]
      exact ⟨hinv, hfl, hrs, hst⟩

/-! ## Inserts into a fresh table -/

/-- The state after `n` inserts into a fresh table. -/
theorem fresh_run (record_size flags a : Nat) (records : Nat → Nat → Nat) (envs : Nat → Env)
    (n : Nat) (ha : ok_block a (TABLE_INCREMENT * record_size))
    (hfit : fits (flags ||| TABLE_HAS_ID) record_size)
    (halloc : ∀ i, i < n → ok_block (envs i).slots ((i + TABLE_INCREMENT) * record_size)) :
    ∃ pt, insert_all ( table_initialize record_size flags a) records envs n = some pt ∧
      Reach record_size flags (Finset.Icc 1 n) (fresh_content record_size flags records envs n)
        pt ∧
      pt.auto_increment = n ∧ pt.number_of_records = n ∧
      pt.number_of_slots = 5 * max 1 ((n + 4) / 5) := by
  induction n with
  | zero =>
    refine ⟨_, rfl, ?_, rfl, rfl, rfl⟩
    have : fresh_content record_size flags records envs 0 = fun _ _ => 0 := by
      funext k o; simp [fresh_content]; omega
    rw [this]
    simpa using Reach.init a ha
  | succ n ih =>
    obtain ⟨pt, hrun, hreach, hA, hR, hS⟩ := ih (fun i hi => halloc i (by omega))
    obtain ⟨hinv, hfl, hrs, hst⟩ := reach_inv hreach
    have hSn : pt.number_of_slots ≤ pt.number_of_records → pt.number_of_slots = n := by
      intro h; rw [hS, hR] at h; rw [hS]
      rw [Nat.max_def] at h ⊢; split_ifs at h ⊢ <;> omega
    have hall : pt.number_of_slots ≤ pt.number_of_records →
        ok_block (envs n).slots ((pt.number_of_slots + TABLE_INCREMENT) * record_size) := by
      intro h; rw [hSn h]; exact halloc n (by omega)
    obtain ⟨pt1, p, hins⟩ := insert_total hinv (records n) (envs n)
      (by rw [hrs]; exact hall) (by rw [hfl, hrs]; exact hfit) (by omega)
    obtain ⟨_, _, _, _, i5, i6, i7, _⟩ :=
      inv_insert hinv (records n) (envs n) (by rw [hrs]; exact hall) hins
    have hr1 := Reach.step_insert (records n) (envs n) hreach hall hins
    have hA1 : pt1.auto_increment = n + 1 := by omega
    refine ⟨pt1, ?_, ?_, hA1, by omega, ?_⟩
    · simp only [insert_all, hrun, hins, Option.map_some']
    · rw [hA1, hfl] at hr1
      have e1 : insert (n + 1) (Finset.Icc 1 n) = Finset.Icc 1 (n + 1) := by
        ext x; simp only [Finset.mem_insert, Finset.mem_Icc]; omega
      have e2 : Function.update (fresh_content record_size flags records envs n) (n + 1)
          (stamp (flags ||| TABLE_HAS_ID) record_size (records n) (n + 1) (envs n).now)
          = fresh_content record_size flags records envs (n + 1) := by
        funext k
        by_cases hk : k = n + 1
        · subst hk
          rw [Function.update_same]
          funext o
          simp [fresh_content]
        · rw [Function.update_noteq hk]
          funext o
          simp only [fresh_content]
          by_cases hk2 : 1 ≤ k ∧ k ≤ n
          · rw [if_pos hk2, if_pos (by omega)]
          · rw [if_neg hk2, if_neg (by omega)]
      rw [e1, e2] at hr1
      exact hr1
    · rw [i5, hS, hR]
      simp only [Nat.max_def]
      split_ifs <;> omega

/-- The call `table_find` of a live identity returns the address of its slot, which lies inside the
record block. -/
theorem find_live {live : Finset Nat} {pt : Table} (hinv : Inv live pt) {k : Nat}
    (hk : k ∈ live) :
    table_find pt k = some (pt.slots + rank live k * pt.record_size) ∧
      pt.slots + rank live k * pt.record_size ≠ 0 ∧
      in_slots pt (pt.slots + rank live k * pt.record_size) pt.record_size = true := by
  have hR := rank_lt_card hk
  have hids := hinv.ids k hk
  have hcnt := hinv.count
  have hal := hinv.auto_le
  have hcard := card_le_auto hinv
  obtain ⟨hb0, hb1⟩ := hinv.block
  have e1 := succ_mul_le pt.record_size (show rank live k < pt.number_of_records by omega)
  have e2 := Nat.mul_le_mul_right pt.record_size
    (show pt.number_of_records ≤ pt.number_of_slots by omega)
  refine ⟨?_, by omega, ?_⟩
  · unfold table_find
    rw [if_neg (by omega), if_pos (by omega), hinv.live_at k hk]
  · simp only [in_slots, decide_eq_true_eq]; omega

/-- C1: for every `n`, inserting `n` records one after another into a fresh table (no
deletes) returns a table with `auto_increment = n` and `number_of_records = n` in which
`table_find k` returns a record slot, not `NULL`, for every `1 ≤ k ≤ n`. -/
theorem C1_insert_n_counts_and_find (record_size flags a : Nat) (records : Nat → Nat → Nat)
    (envs : Nat → Env) (n : Nat) (ha : ok_block a (TABLE_INCREMENT * record_size))
    (hfit : fits (flags ||| TABLE_HAS_ID) record_size)
    (halloc : ∀ i, i < n → ok_block (envs i).slots ((i + TABLE_INCREMENT) * record_size)) :
    ∃ pt, insert_all ( table_initialize record_size flags a) records envs n = some pt ∧
      pt.auto_increment = n ∧ pt.number_of_records = n ∧
      ∀ k, 1 ≤ k → k ≤ n → ∃ p, table_find pt k = some p ∧ p ≠ 0 ∧
        in_slots pt p pt.record_size = true := by
  obtain ⟨pt, hrun, hreach, hA, hR, _⟩ :=
    fresh_run record_size flags a records envs n ha hfit halloc
  obtain ⟨hinv, _, _, _⟩ := reach_inv hreach
  refine ⟨pt, hrun, hA, hR, fun k hk1 hk2 => ?_⟩
  obtain ⟨h1, h2, h3⟩ := find_live hinv (show k ∈ Finset.Icc 1 n by simp; omega)
  exact ⟨_, h1, h2, h3⟩

theorem C1_witness :
    ∃ pt, insert_all ( table_initialize 24 6 4096) (fun i _ => i + 1) (fun _ => demo_env) 7
        = some pt ∧
      pt.auto_increment = 7 ∧ pt.number_of_records = 7 ∧
      ∀ k, 1 ≤ k → k ≤ 7 → ∃ p, table_find pt k = some p ∧ p ≠ 0 ∧
        in_slots pt p pt.record_size = true :=
  C1_insert_n_counts_and_find 24 6 4096 (fun i _ => i + 1) (fun _ => demo_env) 7
    (by decide) (by decide) (fun i hi => by
      unfold ok_block demo_env TABLE_INCREMENT; simp only; omega)

/-! ## Deleting a live identity -/

theorem demo_reach (n : Nat) (hn : n ≤ 1000) :
    Reach 24 6 (Finset.Icc 1 n) (fresh_content 24 6 demo_records (fun _ => demo_env) n)
      (demo_table n) := by
  obtain ⟨pt, hrun, hreach, _⟩ := fresh_run 24 6 4096 demo_records (fun _ => demo_env) n
    (by decide) (by decide) (fun i hi => by
      unfold ok_block demo_env TABLE_INCREMENT; simp only; omega)
  have : demo_table n = pt := by simp [demo_table, hrun]
  rw [this]; exact hreach

/-- C3: after three inserts, `table_delete 2` retires identity 2 (`table_find 2` reports
not-found), but the index fix-up loop of the later `table_delete 1` lowers the `NULL` entry
of identity 2 by one record width, so `table_find 2` then returns the non-`NULL` address
`2 ^ 64 - 24`: the retired identity is reported as found. -/
theorem C3_retired_identity_found_again :
    ∃ t1 p1 t2 p2, table_delete (demo_table 3) 2 = some (t1, p1) ∧
      table_find t1 2 = some 0 ∧
      table_delete t1 1 = some (t2, p2) ∧
      table_find t2 2 = some (2 ^ 64 - 24) ∧ table_find t2 2 ≠ some 0 := by
  refine ⟨_, _, _, _, rfl, ?_, rfl, ?_, ?_⟩
  · decide
  · decide
  · decide

/-! ## Identities are never reused -/

/-- C9: `table_find` reports not-found (`NULL`) exactly when `number_of_records` is 0, or
the identity is 0, or it exceeds `auto_increment`, or its index entry is `NULL`; in every
other case it returns the index entry `id - 1`.  (The entry is read inside the index block
when `id - 1 < number_of_slots`; `table_find` is a function of the table value alone and
returns nothing but the pointer: it has no effect on the table.) -/
theorem C9_find_not_found_iff (pt : Table) (id : Nat) :
    (table_find pt id = some 0 ↔
      pt.number_of_records = 0 ∨ id = 0 ∨ id > pt.auto_increment ∨
        (id - 1 < pt.number_of_slots ∧ pt.index (id - 1) = 0)) ∧
    (pt.number_of_records ≠ 0 → id ≠ 0 → id ≤ pt.auto_increment →
      id - 1 < pt.number_of_slots → table_find pt id = some (pt.index (id - 1))) := by
  unfold table_find
  constructor
  · by_cases hc : pt.number_of_records = 0 ∨ id = 0 ∨ id > pt.auto_increment
    · rw [if_pos hc]
      simp only [true_iff]
      rcases hc with h | h | h
      · exact Or.inl h
      · exact Or.inr (Or.inl h)
      · exact Or.inr (Or.inr (Or.inl h))
    · rw [if_neg hc]
      simp only [not_or] at hc
      by_cases hs : id - 1 < pt.number_of_slots
      · rw [if_pos hs]
        simp only [Option.some.injEq]
        constructor
        · intro h; exact Or.inr (Or.inr (Or.inr ⟨hs, h⟩))
        · rintro (h | h | h | h)
          · exact absurd h hc.1
          · exact absurd h hc.2.1
          · exact absurd h hc.2.2
          · exact h.2
      · rw [if_neg hs]
        constructor
        · intro h; exact absurd h (by simp)
        · rintro (h | h | h | h)
          · exact absurd h hc.1
          · exact absurd h hc.2.1
          · exact absurd h hc.2.2
          · exact absurd h.1 hs
  · intro h1 h2 h3 h4
    rw [if_neg (by omega), if_pos h4]

theorem C9_witness :
    table_find (demo_table 3) 2 = some ((demo_table 3).index (2 - 1)) :=
  (C9_find_not_found_iff (demo_table 3) 2).2 (by decide) (by decide) (by decide) (by decide)

/-! ## The record that `table_insert` stores -/

theorem or_has_id (flags : Nat) : (flags ||| TABLE_HAS_ID) &&& TABLE_HAS_ID ≠ 0 := by
  unfold TABLE_HAS_ID
  rw [Nat.and_one_is_mod]
  have : (flags ||| 1) % 2 = 1 := Nat.or_mod_two_eq_one.mpr (Or.inr rfl)
  omega

theorem layout_fits {flags record_size : Nat} (h : layout_ok flags record_size) :
    fits flags record_size := by
  unfold layout_ok stamped_tail at h
  refine ⟨fun _ => by omega, fun h2 => ?_, fun h3 => ?_⟩
  · split_ifs at h <;> omega
  · rw [if_pos h3] at h; omega

theorem read_write_u64 (mem : Nat → Nat) (off v : Nat) (hv : v < 2 ^ 64) :
    read_u64 (write_u64 mem off v) off = v := by
  simp only [read_u64, write_u64, le_byte]
  simp only [show ∀ i, i < 8 → (off ≤ off + i ∧ off + i < off + 8) from fun i hi => by omega,
    le_refl, Nat.lt_add_of_pos_right, if_true, Nat.add_sub_cancel_left, Nat.sub_self]
  norm_num
  omega

theorem read_u64_congr (m1 m2 : Nat → Nat) (off : Nat)
    (h : ∀ i, i < 8 → m1 (off + i) = m2 (off + i)) : read_u64 m1 off = read_u64 m2 off := by
  unfold read_u64
  have h0 := h 0 (by omega)
  rw [Nat.add_zero] at h0
  rw [h0, h 1 (by omega), h 2 (by omega), h 3 (by omega), h 4 (by omega), h 5 (by omega),
    h 6 (by omega), h 7 (by omega)]

/-- Below the stamped timestamp fields the stored record is the caller's record with the
identity written over its first 8 bytes. -/
theorem stamp_low {flags record_size : Nat} (record : Nat → Nat) (id now : Nat) {o : Nat}
    (ho : o < record_size - stamped_tail flags) :
    stamp flags record_size record id now o
      = (if flags &&& TABLE_HAS_ID ≠ 0 then write_u64 record 0 id else record) o := by
  unfold stamped_tail at ho
  unfold stamp
  by_cases h2 : flags &&& TABLE_HAS_CREATED_AT ≠ 0 ∧ flags &&& TABLE_HAS_UPDATED_AT ≠ 0
  · rw [if_pos h2] at ho
    simp only [if_pos h2, if_pos (Or.inl h2.1)]
    simp only [write_u64]
    rw [if_neg (by omega), if_neg (by omega)]
  · rw [if_neg h2] at ho
    simp only [if_neg h2]
    by_cases h1 : flags &&& TABLE_HAS_CREATED_AT ≠ 0 ∨ flags &&& TABLE_HAS_UPDATED_AT ≠ 0
    · rw [if_pos h1] at ho
      simp only [if_pos h1]
      simp only [write_u64]
      rw [if_neg (by omega)]
    · simp only [if_neg h1]

theorem stamp_id {flags record_size : Nat} (record : Nat → Nat) {id : Nat} (now : Nat)
    (hid : flags &&& TABLE_HAS_ID ≠ 0) (hl : layout_ok flags record_size)
    (hv : id < 2 ^ 64) :
    read_u64 (stamp flags record_size record id now) 0 = id := by
  have h := read_u64_congr (stamp flags record_size record id now)
    (write_u64 record 0 id) 0 (fun i hi => by
      unfold layout_ok at hl
      rw [stamp_low record id now (by omega), if_pos hid])
  rw [h, read_write_u64 record 0 id hv]

theorem stamp_body {flags record_size : Nat} (record : Nat → Nat) (id now : Nat) {o : Nat}
    (h8 : 8 ≤ o) (ho : o < record_size - stamped_tail flags) :
    stamp flags record_size record id now o = record o := by
  rw [stamp_low record id now ho]
  split_ifs
  · simp only [write_u64]; rw [if_neg (by omega)]
  · rfl

/-- C10: for any flags passed to `table_initialize` the stored flags have `HasId`, and in
every table reached from it whose index has a free entry, for a record size that holds the
identity field and the stamped timestamp fields without overlap, `table_insert` returns; the
record it stores has the new `auto_increment` in its first 8 bytes and the caller's bytes
outside the identity field and the stamped timestamp fields, and the location returned is
that of the stored record, at the physical position `number_of_records` before the call. -/
theorem C10_insert_stores_stamped_record {record_size flags : Nat} {live : Finset Nat}
    {content : Nat → Nat → Nat} {pt : Table} (h : Reach record_size flags live content pt)
    (hl : layout_ok (flags ||| TABLE_HAS_ID) record_size)
    (record : Nat → Nat) (env : Env)
    (halloc : pt.number_of_slots ≤ pt.number_of_records →
      ok_block env.slots ((pt.number_of_slots + TABLE_INCREMENT) * record_size))
    (hroom : pt.number_of_records < pt.number_of_slots →
      pt.auto_increment < pt.number_of_slots) :
    pt.flags &&& TABLE_HAS_ID ≠ 0 ∧
    ∃ pt1 p, table_insert pt record env = some (pt1, p) ∧
      pt1.auto_increment = pt.auto_increment + 1 ∧
      p = pt1.slots + pt.number_of_records * record_size ∧
      in_slots pt1 p record_size = true ∧
      table_find pt1 pt1.auto_increment = some p ∧
      read_u64 (record_at pt1 p) 0 = pt1.auto_increment ∧
      ∀ o, 8 ≤ o → o < record_size - stamped_tail (flags ||| TABLE_HAS_ID) →
        record_at pt1 p o = record o := by
  obtain ⟨hinv, hfl, hrs, hst⟩ := reach_inv h
  have hfit := layout_fits hl
  have hid : pt.flags &&& TABLE_HAS_ID ≠ 0 := by rw [hfl]; exact or_has_id flags
  refine ⟨hid, ?_⟩
  obtain ⟨pt1, p, hins⟩ := insert_total hinv record env (by rw [hrs]; exact halloc)
    (by rw [hfl, hrs]; exact hfit) hroom
  obtain ⟨i1, i2, i3, i4, i5, i6, i7, i8⟩ :=
    inv_insert hinv record env (by rw [hrs]; exact halloc) hins
  have hst1 := i8 (by rw [hfl, hrs]; exact hfit) content (hst hfit)
  have hmem : pt1.auto_increment ∈ insert pt1.auto_increment live := Finset.mem_insert_self _ _
  obtain ⟨f1, f2, f3⟩ := find_live i1 hmem
  have hrk : rank (insert pt1.auto_increment live) pt1.auto_increment
      = pt.number_of_records := by
    rw [rank_insert_of_le (le_refl _), i7,
      rank_eq_card (fun k hk => by have := hinv.ids k hk; omega), hinv.count]
  rw [hrk, i4, hrs] at f1 f3
  rw [hrs] at i2
  have hrec : ∀ o, o < record_size → record_at pt1 p o
      = stamp (flags ||| TABLE_HAS_ID) record_size record pt1.auto_increment env.now o := by
    intro o ho
    have := hst1.rec_at _ hmem o (by rw [i4, hrs]; exact ho)
    rw [hrk, i4, hrs, Function.update_same, hfl] at this
    rw [← this, i2]
    simp only [record_at, Nat.add_sub_cancel_left]
  have hbound : pt1.auto_increment < 2 ^ 64 := by
    have h1 := i1.auto_le
    obtain ⟨_, h2⟩ := i1.block
    have hl8 : 8 ≤ pt1.record_size := by
      rw [i4, hrs]; unfold layout_ok at hl; omega
    have := Nat.mul_le_mul h1 hl8
    omega
  refine ⟨pt1, p, hins, i7, i2, by rw [i2]; exact f3, by rw [i2]; exact f1, ?_, ?_⟩
  · have hl' := hl
    unfold layout_ok at hl'
    rw [read_u64_congr _ (stamp (flags ||| TABLE_HAS_ID) record_size record
      pt1.auto_increment env.now) 0 (fun i hi => by
        rw [Nat.zero_add]; exact hrec i (by omega))]
    exact stamp_id record env.now (or_has_id flags) hl hbound
  · intro o h8 ho
    rw [hrec o (by omega)]
    exact stamp_body record _ _ h8 ho

theorem C10_witness :
    (demo_table 5).flags &&& TABLE_HAS_ID ≠ 0 ∧
    ∃ pt1 p, table_insert (demo_table 5) (demo_records 5) demo_env = some (pt1, p) ∧
      pt1.auto_increment = (demo_table 5).auto_increment + 1 ∧
      p = pt1.slots + (demo_table 5).number_of_records * 24 ∧
      in_slots pt1 p 24 = true ∧
      table_find pt1 pt1.auto_increment = some p ∧
      read_u64 (record_at pt1 p) 0 = pt1.auto_increment ∧
      ∀ o, 8 ≤ o → o < 24 - stamped_tail (6 ||| TABLE_HAS_ID) →
        record_at pt1 p o = demo_records 5 o :=
  C10_insert_stores_stamped_record (demo_reach 5 (by decide)) (by decide)
    (demo_records 5) demo_env (fun _ => by decide) (by decide)

/-! ## Growth -/

/-- In a reachable table `table_find` of a live identity finds the record stored for it. -/
theorem find_content {record_size flags : Nat} {live : Finset Nat}
    {content : Nat → Nat → Nat} {pt : Table} (h : Reach record_size flags live content pt)
    (hfit : fits (flags ||| TABLE_HAS_ID) record_size) {k : Nat} (hk : k ∈ live) :
    ∃ p, table_find pt k = some p ∧ p ≠ 0 ∧ p = pt.slots + rank live k * record_size ∧
      ∀ o, o < record_size → record_at pt p o = content k o := by
  obtain ⟨hinv, _, hrs, hst⟩ := reach_inv h
  obtain ⟨f1, f2, _⟩ := find_live hinv hk
  refine ⟨_, f1, f2, by rw [hrs], fun o ho => ?_⟩
  simp only [record_at, Nat.add_sub_cancel_left]
  exact (hst hfit).rec_at k hk o (by rw [hrs]; exact ho)

/-- C8: after `n` inserts into a fresh table, without deletes, `number_of_slots` is
`5 * max 1 ⌈n / 5⌉`: the capacity starts at 5 and an insert grows it, by exactly 5, exactly
when it is made while `number_of_records = number_of_slots`; and `table_find k` finds, for
every `1 ≤ k ≤ n`, the record that the `k`-th insert stored: its identity field is `k` and
its bytes outside the identity field and the stamped timestamp fields are those of the
`k`-th record of the caller. -/
theorem C8_growth_transparent (record_size flags a : Nat) (records : Nat → Nat → Nat)
    (envs : Nat → Env) (n : Nat) (ha : ok_block a (TABLE_INCREMENT * record_size))
    (hl : layout_ok (flags ||| TABLE_HAS_ID) record_size)
    (halloc : ∀ i, i < n → ok_block (envs i).slots ((i + TABLE_INCREMENT) * record_size)) :
    ∃ pt, insert_all ( table_initialize record_size flags a) records envs n = some pt ∧
      pt.number_of_slots = 5 * max 1 ((n + 4) / 5) ∧
      (∀ m, m < n → ∃ t t1,
        insert_all ( table_initialize record_size flags a) records envs m = some t ∧
        insert_all ( table_initialize record_size flags a) records envs (m + 1) = some t1 ∧
        t1.number_of_slots = (if t.number_of_records = t.number_of_slots
          then t.number_of_slots + 5 else t.number_of_slots)) ∧
      (∀ k, 1 ≤ k → k ≤ n → ∃ p, table_find pt k = some p ∧ p ≠ 0 ∧
        (∀ o, o < record_size → record_at pt p o
          = stamp (flags ||| TABLE_HAS_ID) record_size (records (k - 1)) k
              (envs (k - 1)).now o) ∧
        read_u64 (record_at pt p) 0 = k ∧
        ∀ o, 8 ≤ o → o < record_size - stamped_tail (flags ||| TABLE_HAS_ID) →
          record_at pt p o = records (k - 1) o) := by
  have hfit := layout_fits hl
  obtain ⟨pt, hrun, hreach, hA, hR, hS⟩ :=
    fresh_run record_size flags a records envs n ha hfit halloc
  refine ⟨pt, hrun, hS, fun m hm => ?_, fun k hk1 hk2 => ?_⟩
  · obtain ⟨t, htrun, _, _, htR, htS⟩ :=
      fresh_run record_size flags a records envs m ha hfit (fun i hi => halloc i (by omega))
    obtain ⟨t1, ht1run, _, _, _, ht1S⟩ :=
      fresh_run record_size flags a records envs (m + 1) ha hfit
        (fun i hi => halloc i (by omega))
    refine ⟨t, t1, htrun, ht1run, ?_⟩
    rw [ht1S, htS, htR]
    simp only [Nat.max_def]
    split_ifs <;> omega
  · obtain ⟨p, f1, f2, _, f4⟩ :=
      find_content hreach hfit (show k ∈ Finset.Icc 1 n by simp; omega)
    have hrec : ∀ o, o < record_size → record_at pt p o
        = stamp (flags ||| TABLE_HAS_ID) record_size (records (k - 1)) k
            (envs (k - 1)).now o := by
      intro o ho
      rw [f4 o ho]
      simp only [fresh_content, if_pos (show 1 ≤ k ∧ k ≤ n from ⟨hk1, hk2⟩)]
    have hk64 : k < 2 ^ 64 := by
      obtain ⟨hinv, _, hrs, _⟩ := reach_inv hreach
      have h1 := hinv.auto_le
      obtain ⟨_, h2⟩ := hinv.block
      have hl8 : 8 ≤ pt.record_size := by
        rw [hrs]; unfold layout_ok at hl; omega
      have := Nat.mul_le_mul h1 hl8
      omega
    refine ⟨p, f1, f2, hrec, ?_, fun o h8 ho => ?_⟩
    · have hl' := hl
      unfold layout_ok at hl'
      rw [read_u64_congr _ (stamp (flags ||| TABLE_HAS_ID) record_size
        (records (k - 1)) k (envs (k - 1)).now) 0 (fun i hi => by
          rw [Nat.zero_add]; exact hrec i (by omega))]
      exact stamp_id _ _ (or_has_id flags) hl hk64
    · rw [hrec o (by omega)]
      exact stamp_body _ _ _ h8 ho

theorem C8_witness :
    ∃ pt, insert_all ( table_initialize 24 6 4096) demo_records (fun _ => demo_env) 6
        = some pt ∧
      pt.number_of_slots = 5 * max 1 ((6 + 4) / 5) ∧
      (∀ m, m < 6 → ∃ t t1,
        insert_all ( table_initialize 24 6 4096) demo_records (fun _ => demo_env) m = some t ∧
        insert_all ( table_initialize 24 6 4096) demo_records (fun _ => demo_env) (m + 1)
          = some t1 ∧
        t1.number_of_slots = (if t.number_of_records = t.number_of_slots
          then t.number_of_slots + 5 else t.number_of_slots)) ∧
      (∀ k, 1 ≤ k → k ≤ 6 → ∃ p, table_find pt k = some p ∧ p ≠ 0 ∧
        (∀ o, o < 24 → record_at pt p o
          = stamp (6 ||| TABLE_HAS_ID) 24 (demo_records (k - 1)) k demo_env.now o) ∧
        read_u64 (record_at pt p) 0 = k ∧
        ∀ o, 8 ≤ o → o < 24 - stamped_tail (6 ||| TABLE_HAS_ID) →
          record_at pt p o = demo_records (k - 1) o) :=
  C8_growth_transparent 24 6 4096 demo_records (fun _ => demo_env) 6 (by decide) (by decide)
    (fun i hi => by unfold ok_block demo_env TABLE_INCREMENT; simp only; omega)

/-! ## `table_save` and `table_load` -/

theorem le_bytes_length (v : Nat) : (le_bytes v).length = 8 := by
  simp [le_bytes]

theorem le_bytes_getD (v i : Nat) (hi : i < 8) : (le_bytes v).getD i 0 = le_byte v i := by
  unfold le_bytes
  rw [List.getD_eq_getElem _ _ (by simp; omega)]
  simp

/-- Reading back a word from a list that holds its 8 bytes after `pre` other bytes. -/
theorem read_le_bytes (pre : List Nat) (v : Nat) (rest : List Nat) (hv : v < 2 ^ 64) (g : Nat → Nat)
    (hg : ∀ i, i < 8 → g (pre.length + i) = (pre ++ le_bytes v ++ rest).getD (pre.length + i) 0) :
    read_u64 g pre.length = v := by
  have key : ∀ i, i < 8 → g (pre.length + i) = le_byte v i := by
    intro i hi
    rw [hg i hi, List.append_assoc, List.getD_append_right _ _ _ _ (by omega),
      Nat.add_sub_cancel_left, List.getD_append _ _ _ _ (by rw [le_bytes_length]; exact hi),
      le_bytes_getD v i hi]
  have h0 := key 0 (by omega)
  rw [Nat.add_zero] at h0
  unfold read_u64
  rw [h0, key 1 (by omega), key 2 (by omega), key 3 (by omega), key 4 (by omega),
    key 5 (by omega), key 6 (by omega), key 7 (by omega)]
  simp only [le_byte]
  norm_num
  omega

/-- The loop of `table_load` while the record at position `i` starts with the byte
`i + 1`: each iteration stores the address of the record in index entry `i`. -/
theorem load_index_match (pt : Table) (hrs : 0 < pt.record_size)
    (hblk : ok_block pt.slots (pt.number_of_slots * pt.record_size)) :
    ∀ k i index k2, (∀ s, s < k → pt.bytes ((i + s) * pt.record_size) = i + s + 1) →
      i + k ≤ pt.number_of_slots →
      load_index pt (k + k2) i (pt.slots + i * pt.record_size) index
        = load_index pt k2 (i + k) (pt.slots + (i + k) * pt.record_size)
            (fun j => if i ≤ j ∧ j < i + k then pt.slots + j * pt.record_size
              else index j) := by
  obtain ⟨hb0, hb1⟩ := hblk
  intro k
  induction k with
  | zero =>
    intro i index k2 _ _
    have : (fun j => if i ≤ j ∧ j < i + 0 then pt.slots + j * pt.record_size else index j)
        = index := by
      funext j; rw [if_neg (by omega)]
    rw [this]; simp
  | succ k ih =>
    intro i index k2 hb hS
    have e1 := succ_mul_le pt.record_size (show i < pt.number_of_slots by omega)
    have e2 : (i + 1) * pt.record_size = i * pt.record_size + pt.record_size :=
      Nat.succ_mul _ _
    have hin : in_slots pt (pt.slots + i * pt.record_size) 1 = true := by
      simp only [in_slots, decide_eq_true_eq]; omega
    have h0 := hb 0 (by omega)
    rw [Nat.add_zero] at h0
    have hk : k + 1 + k2 = (k + k2) + 1 := by omega
    rw [hk, load_index, hin]
    simp only [Bool.true_eq_false, if_false, Nat.add_sub_cancel_left]
    rw [if_pos h0, if_neg (by omega), w64_of_lt (by omega)]
    have e3 : pt.slots + i * pt.record_size + pt.record_size
        = pt.slots + (i + 1) * pt.record_size := by omega
    rw [e3, ih (i + 1) _ k2 (fun s hs => by
      have := hb (s + 1) (by omega)
      rw [show i + 1 + s = i + (s + 1) by omega]; exact this) (by omega)]
    have e4 : i + 1 + k = i + (k + 1) := by omega
    rw [e4]
    congr 1
    funext j
    by_cases hj : j = i
    · subst hj
      rw [if_neg (by omega), if_pos rfl, if_pos (by omega)]
    · by_cases hj2 : i + 1 ≤ j ∧ j < i + (k + 1)
      · rw [if_pos hj2, if_pos (by omega)]
      · rw [if_neg hj2, if_neg hj, if_neg (by omega)]

/-- The loop of `table_load` once the record under `pr` starts with a byte that matches none
of the remaining loop counters: the index is left as it is. -/
theorem load_index_stuck (pt : Table) (hrs : 0 < pt.record_size)
    (hblk : ok_block pt.slots (pt.number_of_slots * pt.record_size)) (c : Nat)
    (hc : c < pt.number_of_slots) :
    ∀ k i index, (∀ s, s < k → pt.bytes (c * pt.record_size) ≠ i + s + 1) →
      load_index pt k i (pt.slots + c * pt.record_size) index = some index := by
  obtain ⟨hb0, hb1⟩ := hblk
  have e1 := succ_mul_le pt.record_size hc
  have hin : in_slots pt (pt.slots + c * pt.record_size) 1 = true := by
    simp only [in_slots, decide_eq_true_eq]; omega
  intro k
  induction k with
  | zero => intro i index _; rfl
  | succ k ih =>
    intro i index hb
    have h0 := hb 0 (by omega)
    rw [Nat.add_zero] at h0
    rw [load_index, hin]
    simp only [Bool.true_eq_false, if_false, Nat.add_sub_cancel_left]
    rw [if_neg h0]
    exact ih (i + 1) index (fun s hs => by
      have := hb (s + 1) (by omega)
      rw [show i + 1 + s = i + (s + 1) by omega]; exact this)

theorem read_header_word (file pre rest : List Nat) (v off : Nat) (hv : v < 2 ^ 64)
    (hfile : file = pre ++ le_bytes v ++ rest) (hoff : pre.length = off) (hlim : off + 8 ≤ 40) :
    read_u64 (fun o => if o < 40 then file.getD o 0 else 0) off = v := by
  subst hoff
  exact read_le_bytes pre v rest hv _ (fun i hi => by
    simp only [hfile]
    rw [if_pos (by omega)])

/-- The header words and the payload of a file written by `table_save`, as `table_load`
reads them back. -/
theorem saved_file (pt : Table) (file : List Nat) (hfl : pt.flags < 2 ^ 64)
    (hrs64 : pt.record_size < 2 ^ 64) (hS64 : pt.number_of_slots < 2 ^ 64)
    (hR64 : pt.number_of_records < 2 ^ 64) (hA : pt.auto_increment < 2 ^ 64)
    (hfile : file = le_bytes pt.flags ++ le_bytes pt.record_size
      ++ le_bytes pt.number_of_slots ++ le_bytes pt.number_of_records
      ++ le_bytes pt.auto_increment
      ++ (List.range (pt.number_of_records * pt.record_size)).map pt.bytes) :
    file.length = 40 + pt.number_of_records * pt.record_size ∧
    (∀ o, o < pt.number_of_records * pt.record_size → file.getD (40 + o) 0 = pt.bytes o) ∧
    read_u64 (fun o => if o < 40 then file.getD o 0 else 0) 0 = pt.flags ∧
    read_u64 (fun o => if o < 40 then file.getD o 0 else 0) 8 = pt.record_size ∧
    read_u64 (fun o => if o < 40 then file.getD o 0 else 0) 16 = pt.number_of_slots ∧
    read_u64 (fun o => if o < 40 then file.getD o 0 else 0) 24 = pt.number_of_records ∧
    read_u64 (fun o => if o < 40 then file.getD o 0 else 0) 32 = pt.auto_increment := by
  have hlen : file.length = 40 + pt.number_of_records * pt.record_size := by
    rw [hfile]; simp [le_bytes_length]; omega
  have hpay : ∀ o, o < pt.number_of_records * pt.record_size →
      file.getD (40 + o) 0 = pt.bytes o := by
    intro o ho
    rw [hfile, List.getD_append_right _ _ _ _ (by simp [le_bytes_length])]
    simp only [List.length_append, le_bytes_length, Nat.add_sub_cancel_left]
    rw [List.getD_eq_getElem _ _ (by simp; exact ho)]
    simp
  have h1 := read_header_word file [] (le_bytes pt.record_size
      ++ le_bytes pt.number_of_slots ++ le_bytes pt.number_of_records
      ++ le_bytes pt.auto_increment
      ++ (List.range (pt.number_of_records * pt.record_size)).map pt.bytes) pt.flags 0 hfl
    (by rw [hfile]; simp [List.append_assoc]) rfl (by omega)
  have h2 := read_header_word file (le_bytes pt.flags) (le_bytes pt.number_of_slots
      ++ le_bytes pt.number_of_records ++ le_bytes pt.auto_increment
      ++ (List.range (pt.number_of_records * pt.record_size)).map pt.bytes)
    pt.record_size 8 hrs64
    (by rw [hfile]; simp [List.append_assoc]) (le_bytes_length _) (by omega)
  have h3 := read_header_word file (le_bytes pt.flags ++ le_bytes pt.record_size)
    (le_bytes pt.number_of_records ++ le_bytes pt.auto_increment
      ++ (List.range (pt.number_of_records * pt.record_size)).map pt.bytes)
    pt.number_of_slots 16 hS64
    (by rw [hfile]; simp [List.append_assoc]) (by simp [le_bytes_length]) (by omega)
  have h4 := read_header_word file (le_bytes pt.flags ++ le_bytes pt.record_size
      ++ le_bytes pt.number_of_slots)
    (le_bytes pt.auto_increment
      ++ (List.range (pt.number_of_records * pt.record_size)).map pt.bytes)
    pt.number_of_records 24 hR64
    (by rw [hfile]; simp [List.append_assoc]) (by simp [le_bytes_length]) (by omega)
  have h5 := read_header_word file (le_bytes pt.flags ++ le_bytes pt.record_size
      ++ le_bytes pt.number_of_slots ++ le_bytes pt.number_of_records)
    ((List.range (pt.number_of_records * pt.record_size)).map pt.bytes)
    pt.auto_increment 32 hA
    (by rw [hfile]) (by simp [le_bytes_length]) (by omega)
  exact ⟨hlen, hpay, h1, h2, h3, h4, h5⟩

set_option maxHeartbeats 1000000 in
/-- Loading what `table_save` wrote, for a table in which the records at the first `m`
positions start with the bytes `1`, ..., `m` and the first byte of the next record matches
no later loop counter: the header and the records are restored and exactly the first `m`
index entries are rebuilt. -/
theorem load_saved (pt : Table) (a m : Nat) (hfl : pt.flags < 2 ^ 64)
    (hrs : 0 < pt.record_size) (hrs64 : pt.record_size < 2 ^ 64)
    (hblk : ok_block pt.slots (pt.number_of_slots * pt.record_size))
    (ha : ok_block a (pt.number_of_slots * pt.record_size))
    (hR : pt.number_of_records ≤ pt.number_of_slots) (hA : pt.auto_increment < 2 ^ 64)
    (hm : m ≤ pt.number_of_records)
    (hmatch : ∀ i, i < m → pt.bytes (i * pt.record_size) = i + 1)
    (hstuck : ∀ i, m ≤ i → i < pt.number_of_records →
      pt.bytes (m * pt.record_size) ≠ i + 1) :
    ∃ file t, table_save pt = some (file, to_int (5 + pt.number_of_records)) ∧
      table_load file a = some t ∧
      t.flags = pt.flags ∧ t.record_size = pt.record_size ∧
      t.number_of_slots = pt.number_of_slots ∧
      t.number_of_records = pt.number_of_records ∧
      t.auto_increment = pt.auto_increment ∧ t.slots = a ∧
      (∀ o, t.bytes o
        = if o < pt.number_of_records * pt.record_size then pt.bytes o else 0) ∧
      (∀ j, t.index j = if j < m then a + j * pt.record_size else 0) := by
  obtain ⟨hb0, hb1⟩ := hblk
  have ha' := ha
  obtain ⟨ha0, ha1⟩ := ha'
  have e1 := Nat.mul_le_mul_right pt.record_size hR
  have e2 : pt.number_of_slots ≤ pt.number_of_slots * pt.record_size :=
    Nat.le_mul_of_pos_right _ hrs
  have e3 : pt.record_size ≤ pt.number_of_slots * pt.record_size ∨ pt.number_of_slots = 0 := by
    rcases Nat.eq_zero_or_pos pt.number_of_slots with h | h
    · right; exact h
    · left; exact Nat.le_mul_of_pos_left _ h
  have hsave : in_slots pt pt.slots (pt.number_of_records * pt.record_size) = true := by
    simp only [in_slots, decide_eq_true_eq]; omega
  obtain ⟨file, hfile⟩ : ∃ f, f = le_bytes pt.flags ++ le_bytes pt.record_size
      ++ le_bytes pt.number_of_slots ++ le_bytes pt.number_of_records
      ++ le_bytes pt.auto_increment
      ++ (List.range (pt.number_of_records * pt.record_size)).map pt.bytes := ⟨_, rfl⟩
  have hS64 : pt.number_of_slots < 2 ^ 64 := by omega
  have hR64 : pt.number_of_records < 2 ^ 64 := by omega
  obtain ⟨hlen, hpay, h1, h2, h3, h4, h5⟩ :=
    saved_file pt file hfl hrs64 hS64 hR64 hA hfile
  refine ⟨file, ?_⟩
  have hs : table_save pt = some (file, to_int (5 + pt.number_of_records)) := by
    unfold table_save
    simp only [hsave, Bool.true_eq_false, and_false, if_false, ← hfile,
      if_neg (show ¬ pt.record_size = 0 by omega)]
  have hmin : min (file.length - 40) (pt.number_of_records * pt.record_size)
      = pt.number_of_records * pt.record_size := by rw [hlen]; omega
  have hli : load_index
      { flags := pt.flags, record_size := pt.record_size,
        number_of_slots := pt.number_of_slots, number_of_records := pt.number_of_records,
        auto_increment := pt.auto_increment, slots := a,
        bytes := fun o => if o < pt.number_of_records * pt.record_size
          then file.getD (40 + o) 0 else 0,
        index := fun _ => 0 } pt.number_of_records 0 a (fun _ => 0)
      = some (fun j => if j < m then a + j * pt.record_size else 0) := by
    obtain ⟨pt1, hpt1⟩ : ∃ t : Table, t = Table.mk pt.flags pt.record_size
        pt.number_of_slots pt.number_of_records pt.auto_increment a
        (fun o => if o < pt.number_of_records * pt.record_size
          then file.getD (40 + o) 0 else 0) (fun _ => 0) := ⟨_, rfl⟩
    have q1 : pt1.record_size = pt.record_size := by rw [hpt1]
    have q2 : pt1.number_of_slots = pt.number_of_slots := by rw [hpt1]
    have q3 : pt1.slots = a := by rw [hpt1]
    have q4 : ∀ o, o < pt.number_of_records * pt.record_size → pt1.bytes o = pt.bytes o := by
      intro o ho
      rw [hpt1]
      simp only [if_pos ho]
      exact hpay o ho
    rw [← hpt1]
    have key := load_index_match pt1 (by rw [q1]; exact hrs) (by rw [q1, q2, q3]; exact ha)
      m 0 (fun _ => 0) (pt.number_of_records - m) (fun s hs => by
        have := succ_mul_le pt.record_size (show s < pt.number_of_records by omega)
        rw [Nat.zero_add, q1, q4 _ (by omega), hmatch s hs]) (by omega)
    simp only [Nat.zero_mul, Nat.add_zero, Nat.zero_add, Nat.zero_le, true_and, q1, q3] at key
    rw [show m + (pt.number_of_records - m) = pt.number_of_records by omega] at key
    rw [key]
    by_cases hmR : m = pt.number_of_records
    · rw [hmR, Nat.sub_self]; rfl
    · have hst := load_index_stuck pt1 (by rw [q1]; exact hrs)
        (by rw [q1, q2, q3]; exact ha) m (by omega) (pt.number_of_records - m) m
        (fun j => if j < m then a + j * pt.record_size else 0) (fun s hs => by
          have := succ_mul_le pt.record_size (show m < pt.number_of_records by omega)
          rw [q1, q4 _ (by omega)]
          exact hstuck (m + s) (by omega) (by omega))
      rw [q1, q3] at hst
      exact hst
  refine ⟨Table.mk pt.flags pt.record_size pt.number_of_slots pt.number_of_records
      pt.auto_increment a
      (fun o => if o < pt.number_of_records * pt.record_size then file.getD (40 + o) 0 else 0)
      (fun j => if j < m then a + j * pt.record_size else 0), hs, ?_,
    rfl, rfl, rfl, rfl, rfl, rfl, fun o => ?_, fun j => rfl⟩
  · unfold table_load
    simp only [h1, h2, h3, h4, h5, hmin, in_slots, hli]
    rw [if_neg]
    simp only [decide_eq_false_iff_not]
    omega
  · simp only
    split_ifs with ho
    · exact hpay o ho
    · rfl

/-- C5: after the inserts of identities 1, 2, 3 and `table_delete 2`, identity 3 is found;
`table_save` followed by `table_load` returns a table with the same two records in which
`table_find 3` reports not-found: the loop that rebuilds the index runs over
`i < number_of_records` only (here `i = 0, 1`), so the entry of identity 3 is never set. -/
theorem C5_round_trip_drops_identity_3 :
    (∃ p, table_find demo_deleted 3 = some p ∧ p ≠ 0) ∧
    ∃ n t, table_save demo_deleted = some (saved demo_deleted, n) ∧
      table_load (saved demo_deleted) 12288 = some t ∧
      t.number_of_records = 2 ∧ t.auto_increment = 3 ∧
      (∃ p, table_find t 1 = some p ∧ p ≠ 0) ∧
      table_find t 3 = some 0 := by
  refine ⟨⟨_, rfl, by decide⟩, _, _, rfl, rfl, ?_, ?_, ⟨_, rfl, ?_⟩, ?_⟩
  · decide
  · decide
  · decide
  · decide

/-! ## Deleting the last identities, then saving and loading -/

/-- Deleting the identities `m + 1`, ..., `m + j` in ascending order from a table in which
the identities `1`, ..., `n` are live. -/
theorem tail_delete {record_size flags n : Nat} {content : Nat → Nat → Nat} {pt : Table}
    (h : Reach record_size flags (Finset.Icc 1 n) content pt) (hA : pt.auto_increment = n)
    (m : Nat) :
    ∀ j, m + j ≤ n → ∃ t, delete_from pt m j = some t ∧
      Reach record_size flags ((Finset.Icc 1 n).filter (fun k => k ≤ m ∨ m + j < k))
        content t ∧
      t.auto_increment = n ∧ t.number_of_slots = pt.number_of_slots ∧
      ∀ i, m ≤ i → i < m + j → t.index i = 0 := by
  intro j
  induction j with
  | zero =>
    intro _
    refine ⟨pt, rfl, ?_, hA, rfl, fun i h1 h2 => by omega⟩
    rw [Finset.filter_true_of_mem (fun k _ => by omega)]
    exact h
  | succ j ih =>
    intro hj
    obtain ⟨t, hrun, hreach, htA, htS, hzero⟩ := ih (by omega)
    obtain ⟨hinv, _, _, _⟩ := reach_inv hreach
    have hmem : m + j + 1 ∈ (Finset.Icc 1 n).filter (fun k => k ≤ m ∨ m + j < k) := by
      simp only [Finset.mem_filter, Finset.mem_Icc]; omega
    obtain ⟨t1, hdel, _, _, _, hS1, _, hA1, _, hidx, _, _, hlow⟩ := inv_delete_live hinv hmem
    have hr1 := Reach.step_delete (m + j + 1) hreach hdel
    have e1 : ((Finset.Icc 1 n).filter (fun k => k ≤ m ∨ m + j < k)).erase (m + j + 1)
        = (Finset.Icc 1 n).filter (fun k => k ≤ m ∨ m + (j + 1) < k) := by
      ext k
      simp only [Finset.mem_erase, Finset.mem_filter, Finset.mem_Icc]; omega
    rw [e1] at hr1
    refine ⟨t1, ?_, hr1, by omega, by omega, fun i h1 h2 => ?_⟩
    · simp only [delete_from, hrun, hdel, Option.map_some']
    · by_cases hi : i = m + j
      · rw [hi]
        simpa using hidx
      · rw [hlow i (by omega)]
        exact hzero i h1 (by omega)

theorem stamp_first_byte {flags record_size : Nat} (record : Nat → Nat) (id now : Nat)
    (hid : flags &&& TABLE_HAS_ID ≠ 0) (hl : layout_ok flags record_size) :
    stamp flags record_size record id now 0 = id % 256 := by
  unfold layout_ok at hl
  rw [stamp_low record id now (by omega), if_pos hid]
  simp [write_u64, le_byte]

/-- C6: for `m ≤ n ≤ 255`, after `n` inserts into a fresh table and the deletes of the
identities `m + 1`, ..., `n` in ascending order, `number_of_records = m`, `table_find k`
finds the record stored by the `k`-th insert (with the caller's bytes outside the identity
and timestamp fields) for `1 ≤ k ≤ m` and reports not-found for `m < k ≤ n`; and after
`table_save` followed by `table_load`, `table_find k` still finds a record with the same
bytes for `1 ≤ k ≤ m` and still reports not-found for `m < k ≤ n`. -/
theorem C6_tail_deletion_round_trip (record_size flags a a2 : Nat)
    (records : Nat → Nat → Nat) (envs : Nat → Env) (n m : Nat) (hmn : m ≤ n) (hn : n ≤ 255)
    (hflags : flags < 2 ^ 64)
    (ha : ok_block a (TABLE_INCREMENT * record_size))
    (hl : layout_ok (flags ||| TABLE_HAS_ID) record_size)
    (halloc : ∀ i, i < n → ok_block (envs i).slots ((i + TABLE_INCREMENT) * record_size))
    (ha2 : ok_block a2 (5 * max 1 ((n + 4) / 5) * record_size)) :
    ∃ pt t file r t2,
      insert_all ( table_initialize record_size flags a) records envs n = some pt ∧
      delete_from pt m (n - m) = some t ∧
      t.number_of_records = m ∧
      (∀ k, 1 ≤ k → k ≤ m → ∃ p, table_find t k = some p ∧ p ≠ 0 ∧
        (∀ o, o < record_size → record_at t p o
          = stamp (flags ||| TABLE_HAS_ID) record_size (records (k - 1)) k
              (envs (k - 1)).now o) ∧
        (∀ o, 8 ≤ o → o < record_size - stamped_tail (flags ||| TABLE_HAS_ID) →
          record_at t p o = records (k - 1) o) ∧
        ∃ p2, table_find t2 k = some p2 ∧ p2 ≠ 0 ∧
          ∀ o, o < record_size → record_at t2 p2 o = record_at t p o) ∧
      (∀ k, m < k → k ≤ n → table_find t k = some 0 ∧ table_find t2 k = some 0) ∧
      table_save t = some (file, r) ∧ table_load file a2 = some t2 ∧
      t2.number_of_records = m := by
  have hfit := layout_fits hl
  have ha20 : 0 < a2 := ha2.1
  have hl' := hl
  unfold layout_ok at hl'
  obtain ⟨pt, hrun, hreach, hA, hR, hS⟩ :=
    fresh_run record_size flags a records envs n ha hfit halloc
  obtain ⟨t, hdel, hreach1, htA, htS, hzero⟩ := tail_delete hreach hA m (n - m) (by omega)
  have elive : (Finset.Icc 1 n).filter (fun k => k ≤ m ∨ m + (n - m) < k)
      = Finset.Icc 1 m := by
    ext k
    simp only [Finset.mem_filter, Finset.mem_Icc]; omega
  rw [elive] at hreach1
  obtain ⟨hinv, hfl, hrs, hst⟩ := reach_inv hreach1
  have hst1 := hst hfit
  have htR : t.number_of_records = m := by rw [hinv.count]; simp
  have hal := hinv.auto_le
  obtain ⟨hb0, hb1⟩ := hinv.block
  have ha1 := ha
  unfold ok_block TABLE_INCREMENT at ha1
  have hrank : ∀ k, 1 ≤ k → k ≤ m → rank (Finset.Icc 1 m) k = k - 1 :=
    fun k _ hk2 => rank_Icc (by omega)
  have hbyte : ∀ i, i < m → t.bytes (i * t.record_size) = i + 1 := by
    intro i hi
    have h1 := hst1.rec_at (i + 1) (by simp; omega) 0 (by rw [hrs]; omega)
    rw [hrank (i + 1) (by omega) (by omega), Nat.add_zero, Nat.add_sub_cancel] at h1
    rw [h1]
    simp only [fresh_content, if_pos (show 1 ≤ i + 1 ∧ i + 1 ≤ n by omega)]
    rw [stamp_first_byte _ _ _ (or_has_id flags) hl]
    omega
  obtain ⟨file, t2, hsave, hload, gfl, grs, gS, gR, gA, gb, gbytes, gidx⟩ :=
    load_saved t a2 m
      (by rw [hfl]; exact Nat.or_lt_two_pow hflags (by unfold TABLE_HAS_ID; omega))
      (by rw [hrs]; omega) (by rw [hrs]; omega) hinv.block
      (by rw [htS, hS, hrs]; exact ha2)
      (by rw [htR]; omega) (by omega) (by omega) hbyte (fun i h1 h2 => by omega)
  refine ⟨pt, t, file, _, t2, hrun, hdel, htR, fun k hk1 hk2 => ?_, fun k hk1 hk2 => ?_,
    hsave, hload, by rw [gR, htR]⟩
  · obtain ⟨p, f1, f2, f3, f4⟩ :=
      find_content hreach1 hfit (show k ∈ Finset.Icc 1 m by simp; omega)
    have hrec : ∀ o, o < record_size → record_at t p o
        = stamp (flags ||| TABLE_HAS_ID) record_size (records (k - 1)) k
            (envs (k - 1)).now o := by
      intro o ho
      rw [f4 o ho]
      simp only [fresh_content, if_pos (show 1 ≤ k ∧ k ≤ n by omega)]
    refine ⟨p, f1, f2, hrec, fun o h8 ho => ?_, a2 + (k - 1) * t.record_size, ?_, by omega,
      fun o ho => ?_⟩
    · rw [hrec o (by omega)]
      exact stamp_body _ _ _ h8 ho
    · unfold table_find
      rw [if_neg (by omega), if_pos (by omega), gidx, if_pos (by omega)]
    · have e1 := succ_mul_le t.record_size (show k - 1 < t.number_of_records by omega)
      rw [f3, hrank k hk1 hk2]
      simp only [record_at, gb, Nat.add_sub_cancel_left]
      rw [gbytes, if_pos (by omega), hrs]
  · constructor
    · unfold table_find
      by_cases hc : t.number_of_records = 0 ∨ k = 0 ∨ k > t.auto_increment
      · rw [if_pos hc]
      · rw [if_neg hc, if_pos (by omega), hzero (k - 1) (by omega) (by omega)]
    · unfold table_find
      by_cases hc : t2.number_of_records = 0 ∨ k = 0 ∨ k > t2.auto_increment
      · rw [if_pos hc]
      · rw [if_neg hc, if_pos (by omega), gidx, if_neg (by omega)]

/-- The scenario of the built-in test: 30 records of 64 bytes, identities 21 to 30
deleted. -/
theorem C6_witness :
    ∃ pt t file r t2,
      insert_all ( table_initialize 64 7 4096) demo_records (fun _ => demo_env) 30 = some pt ∧
      delete_from pt 20 (30 - 20) = some t ∧
      t.number_of_records = 20 ∧
      (∀ k, 1 ≤ k → k ≤ 20 → ∃ p, table_find t k = some p ∧ p ≠ 0 ∧
        (∀ o, o < 64 → record_at t p o
          = stamp (7 ||| TABLE_HAS_ID) 64 (demo_records (k - 1)) k demo_env.now o) ∧
        (∀ o, 8 ≤ o → o < 64 - stamped_tail (7 ||| TABLE_HAS_ID) →
          record_at t p o = demo_records (k - 1) o) ∧
        ∃ p2, table_find t2 k = some p2 ∧ p2 ≠ 0 ∧
          ∀ o, o < 64 → record_at t2 p2 o = record_at t p o) ∧
      (∀ k, 20 < k → k ≤ 30 → table_find t k = some 0 ∧ table_find t2 k = some 0) ∧
      table_save t = some (file, r) ∧ table_load file 12288 = some t2 ∧
      t2.number_of_records = 20 :=
  C6_tail_deletion_round_trip 64 7 4096 12288 demo_records (fun _ => demo_env) 30 20
    (by decide) (by decide) (by decide) (by decide) (by decide)
    (fun i hi => by unfold ok_block demo_env TABLE_INCREMENT; simp only; omega) (by decide)

/-! ## Round trips that lose identities -/

/-- C4: after 256 inserts into a fresh table identity 256 is found, but in the table that
`table_load` returns for the bytes written by `table_save`, with the same counters,
`table_find 256` reports not-found: the loop that rebuilds the index compares one byte of
the record, `(ulong)*pr`, with `i + 1`, and the first byte of the identity 256 is 0. -/
theorem C4_round_trip_loses_identity_256 :
    (demo_table 256).auto_increment = 256 ∧ (demo_table 256).number_of_records = 256 ∧
    (∃ p, table_find (demo_table 256) 256 = some p ∧ p ≠ 0) ∧
    ∃ file r t, table_save (demo_table 256) = some (file, r) ∧
      table_load file 65536 = some t ∧
      t.auto_increment = 256 ∧ t.number_of_records = 256 ∧
      table_find t 256 = some 0 := by
  have hreach := demo_reach 256 (by decide)
  obtain ⟨pt, hrun, _, hA, hR, hS⟩ := fresh_run 24 6 4096 demo_records (fun _ => demo_env) 256
    (by decide) (by decide) (fun i hi => by
      unfold ok_block demo_env TABLE_INCREMENT; simp only; omega)
  have hpt : demo_table 256 = pt := by simp [demo_table, hrun]
  rw [← hpt] at hA hR hS
  obtain ⟨hinv, hfl, hrs, hst⟩ := reach_inv hreach
  have hst1 := hst (by decide)
  have hS' : (demo_table 256).number_of_slots = 260 := by rw [hS]; decide
  have hbyte : ∀ i, i < 256 →
      (demo_table 256).bytes (i * (demo_table 256).record_size) = (i + 1) % 256 := by
    intro i hi
    have h1 := hst1.rec_at (i + 1) (by simp; omega) 0 (by rw [hrs]; omega)
    rw [rank_Icc (by omega), Nat.add_zero, Nat.add_sub_cancel] at h1
    rw [h1]
    simp only [fresh_content, if_pos (show 1 ≤ i + 1 ∧ i + 1 ≤ 256 by omega)]
    exact stamp_first_byte _ _ _ (or_has_id 6) (by decide)
  obtain ⟨f1, f2, _⟩ := find_live hinv (show 256 ∈ Finset.Icc 1 256 by decide)
  obtain ⟨file, t, hsave, hload, _, _, gS, gR, gA, _, _, gidx⟩ :=
    load_saved (demo_table 256) 65536 255
      (by rw [hfl]; decide) (by rw [hrs]; omega) (by rw [hrs]; omega) hinv.block
      (by rw [hS', hrs]; decide) (by omega) (by omega) (by omega)
      (fun i hi => by rw [hbyte i (by omega)]; omega)
      (fun i h1 h2 => by rw [hbyte 255 (by omega)]; omega)
  refine ⟨hA, hR, ⟨_, f1, f2⟩, file, _, t, hsave, hload, by omega, by omega, ?_⟩
  unfold table_find
  rw [if_neg (by omega), if_pos (by omega), gidx, if_neg (by omega)]

/-! ## Deleting an identity that is not found -/

/-- C12: for every table and every identity for which `table_find` reports not-found,
`table_delete` returns `NULL` and the table it leaves is the table it was given: no
counter, no byte of the record block and no index entry changes. -/
theorem C12_delete_not_found_noop (pt : Table) (id : Nat) (h : table_find pt id = some 0) :
    table_delete pt id = some (pt, 0) := by
  unfold table_delete
  rw [h]
  simp

theorem C12_witness : table_delete (demo_table 3) 7 = some (demo_table 3, 0) :=
  C12_delete_not_found_noop (demo_table 3) 7 (by decide)

/-! ## The counters -/

/-- What `table_delete` returns and what it does to the counters, for any table. -/
theorem table_delete_result {pt t : Table} {id p : Nat}
    (h : table_delete pt id = some (t, p)) :
    (table_find pt id = some 0 ∧ t = pt ∧ p = 0) ∨
    (∃ pr, table_find pt id = some pr ∧ pr ≠ 0 ∧ pt.number_of_records ≠ 0 ∧
      t.number_of_records = pt.number_of_records - 1 ∧
      p = if t.number_of_records > 0 then pr else 0) := by
  unfold table_delete at h
  split at h
  · exact absurd h (by simp)
  · rename_i pr hpr
    by_cases h0 : pr = 0
    · left
      rw [if_pos h0] at h
      injection h with h; injection h with h1 h2
      exact ⟨by rw [hpr, h0], h1.symm, h2.symm⟩
    · right
      have hR : pt.number_of_records ≠ 0 := by
        intro hz
        unfold table_find at hpr
        rw [if_pos (Or.inl hz)] at hpr
        injection hpr with hpr
        exact h0 hpr.symm
      rw [if_neg h0] at h
      simp only at h
      split_ifs at h
      all_goals
        injection h with h; injection h with h1 h2
        subst h1
        refine ⟨pr, hpr, h0, hR, rfl, ?_⟩
        rw [← h2]
        first
          | rw [if_pos (by assumption)]
          | rw [if_neg (by assumption)]

/-- C13 as stated fails: deleting the only live record returns `NULL` although the record
was removed, the same result as deleting the absent identity 2. -/
theorem C13_removed_yet_null :
    ∃ t, table_delete (demo_table 1) 1 = some (t, 0) ∧
      t.number_of_records + 1 = (demo_table 1).number_of_records ∧
      table_delete (demo_table 1) 2 = some (demo_table 1, 0) :=
  ⟨_, rfl, by decide, rfl⟩

/-- C13, amended: for every table and identity, `table_delete` returns a non-`NULL` pointer
if and only if it removed a record and the table still holds a record afterwards; it
returns `NULL` both when nothing was found and when the record removed was the last one
of the table, and a non-`NULL` result is the address that `table_find` gave for the
identity. -/
theorem C13_delete_result (pt : Table) (id : Nat) (t : Table) (p : Nat)
    (h : table_delete pt id = some (t, p)) :
    (p ≠ 0 ↔ t.number_of_records + 1 = pt.number_of_records ∧ t.number_of_records > 0) ∧
      (p ≠ 0 → table_find pt id = some p) := by
  rcases table_delete_result h with ⟨_, rfl, rfl⟩ | ⟨pr, hf, hpr, hR, hR1, hp⟩
  · simp
  · by_cases hgt : t.number_of_records > 0
    · rw [if_pos hgt] at hp
      subst hp
      exact ⟨⟨fun _ => ⟨by omega, hgt⟩, fun _ => hpr⟩, fun _ => hf⟩
    · rw [if_neg hgt] at hp
      subst hp
      exact ⟨⟨fun h0 => absurd rfl h0, fun h1 => absurd h1.2 hgt⟩, fun h0 => absurd rfl h0⟩

theorem C13_witness :
    ((demo_table 3).slots + 24 ≠ 0 ↔
      demo_deleted.number_of_records + 1 = (demo_table 3).number_of_records ∧
        demo_deleted.number_of_records > 0) ∧
      ((demo_table 3).slots + 24 ≠ 0 →
        table_find (demo_table 3) 2 = some ((demo_table 3).slots + 24)) :=
  C13_delete_result (demo_table 3) 2 demo_deleted ((demo_table 3).slots + 24) rfl

/-! ## What `table_save` writes -/

theorem to_int_small {x : Nat} (h : x < 2 ^ 31) : to_int x = (x : Int) := by
  unfold to_int
  have h1 : x % 2 ^ 32 = x := Nat.mod_eq_of_lt (by omega)
  rw [h1, if_pos h]

/-- C14: for a table whose records lie in its record block, `table_save` writes exactly the
five header words `flags`, `record_size`, `number_of_slots`, `number_of_records`,
`auto_increment`, in that order and each as one `ulong`, followed by the first
`number_of_records * record_size` bytes of the record block and nothing else, and it returns
`5 + number_of_records` (records of at least one byte, a count that fits an `int`). -/
theorem C14_save_output (pt : Table) (hb : pt.slots ≠ 0)
    (hR : pt.number_of_records ≤ pt.number_of_slots) (hrs : 0 < pt.record_size)
    (hint : 5 + pt.number_of_records < 2 ^ 31)
    (hfl : pt.flags < 2 ^ 64) (hrs64 : pt.record_size < 2 ^ 64)
    (hS64 : pt.number_of_slots < 2 ^ 64) (hA : pt.auto_increment < 2 ^ 64) :
    ∃ file, table_save pt = some (file, ((5 + pt.number_of_records : Nat) : Int)) ∧
      file = le_bytes pt.flags ++ le_bytes pt.record_size ++ le_bytes pt.number_of_slots
        ++ le_bytes pt.number_of_records ++ le_bytes pt.auto_increment
        ++ (List.range (pt.number_of_records * pt.record_size)).map pt.bytes ∧
      file.length = 40 + pt.number_of_records * pt.record_size ∧
      (∀ o, o < pt.number_of_records * pt.record_size → file.getD (40 + o) 0 = pt.bytes o) ∧
      read_u64 (fun o => if o < 40 then file.getD o 0 else 0) 0 = pt.flags ∧
      read_u64 (fun o => if o < 40 then file.getD o 0 else 0) 8 = pt.record_size ∧
      read_u64 (fun o => if o < 40 then file.getD o 0 else 0) 16 = pt.number_of_slots ∧
      read_u64 (fun o => if o < 40 then file.getD o 0 else 0) 24 = pt.number_of_records ∧
      read_u64 (fun o => if o < 40 then file.getD o 0 else 0) 32 = pt.auto_increment := by
  have e1 := Nat.mul_le_mul_right pt.record_size hR
  have hsave : in_slots pt pt.slots (pt.number_of_records * pt.record_size) = true := by
    simp only [in_slots, decide_eq_true_eq]; omega
  refine ⟨_, ?_, rfl, saved_file pt _ hfl hrs64 hS64 (by omega) hA rfl⟩
  unfold table_save
  simp only [hsave, Bool.true_eq_false, and_false, if_false,
    if_neg (show ¬ pt.record_size = 0 by omega), to_int_small hint]

theorem C14_witness :
    ∃ file, table_save (demo_table 3)
        = some (file, ((5 + (demo_table 3).number_of_records : Nat) : Int)) ∧
      file = le_bytes (demo_table 3).flags ++ le_bytes (demo_table 3).record_size
        ++ le_bytes (demo_table 3).number_of_slots
        ++ le_bytes (demo_table 3).number_of_records
        ++ le_bytes (demo_table 3).auto_increment
        ++ (List.range ((demo_table 3).number_of_records * (demo_table 3).record_size)).map
            (demo_table 3).bytes ∧
      file.length = 40 + (demo_table 3).number_of_records * (demo_table 3).record_size ∧
      (∀ o, o < (demo_table 3).number_of_records * (demo_table 3).record_size →
        file.getD (40 + o) 0 = (demo_table 3).bytes o) ∧
      read_u64 (fun o => if o < 40 then file.getD o 0 else 0) 0 = (demo_table 3).flags ∧
      read_u64 (fun o => if o < 40 then file.getD o 0 else 0) 8
        = (demo_table 3).record_size ∧
      read_u64 (fun o => if o < 40 then file.getD o 0 else 0) 16
        = (demo_table 3).number_of_slots ∧
      read_u64 (fun o => if o < 40 then file.getD o 0 else 0) 24
        = (demo_table 3).number_of_records ∧
      read_u64 (fun o => if o < 40 then file.getD o 0 else 0) 32
        = (demo_table 3).auto_increment :=
  C14_save_output (demo_table 3) (by decide) (by decide) (by decide) (by decide) (by decide)
    (by decide) (by decide) (by decide)

/-! ## What `table_load` accepts -/

/-- An insert that needs no growth writes the index entry `auto_increment`; when that entry
lies outside the `number_of_slots` entries of the index block the call does not return. -/
theorem insert_outside_index (pt : Table) (record : Nat → Nat) (env : Env)
    (hr : pt.number_of_records < pt.number_of_slots)
    (ha : pt.number_of_slots ≤ pt.auto_increment) :
    table_insert pt record env = none := by
  unfold table_insert
  rw [if_neg (by omega)]
  simp only [table_available_index]
  rw [if_pos ha]

/-- C17: the table after five inserts and `table_delete 1` is reached by calls that return;
it has `number_of_records = 4`, `number_of_slots = 5` and `auto_increment = 5`.  The next
`table_insert` does not grow the table (4 < 5) and writes the index entry at position
`auto_increment = 5`, which is not less than `number_of_slots`: the write is outside the
index block. -/
theorem C17_insert_writes_outside_index :
    (∃ p, table_delete (demo_table 5) 1 = some (demo_gap, p)) ∧
    demo_gap.number_of_records = 4 ∧ demo_gap.number_of_slots = 5 ∧
    table_available_index demo_gap = 5 ∧
    ¬ table_available_index demo_gap < demo_gap.number_of_slots ∧
    table_insert demo_gap (demo_records 5) demo_env = none := by
  refine ⟨⟨_, rfl⟩, by decide, by decide, by decide, by decide, ?_⟩
  exact insert_outside_index demo_gap _ _ (by decide) (by decide)

/-! ## Packing and the zeroed tail -/

theorem write_u64_other (mem : Nat → Nat) (off v : Nat) {o : Nat}
    (h : ¬ (off ≤ o ∧ o < off + 8)) : write_u64 mem off v o = mem o := by
  simp only [write_u64]
  rw [if_neg h]

theorem stamp_last {flags record_size : Nat} (record : Nat → Nat) (id : Nat) {now : Nat}
    (hany : flags &&& TABLE_HAS_CREATED_AT ≠ 0 ∨ flags &&& TABLE_HAS_UPDATED_AT ≠ 0)
    (hfit : fits flags record_size) (hnow : now < 2 ^ 64) :
    read_u64 (stamp flags record_size record id now) (record_size - 8) = now := by
  obtain ⟨_, f2, f3⟩ := hfit
  have h8 := f2 hany
  rw [read_u64_congr _ (write_u64 (if flags &&& TABLE_HAS_ID ≠ 0
      then write_u64 record 0 id else record) (record_size - 8) now) (record_size - 8)
    (fun i hi => by
      unfold stamp
      simp only [if_pos hany]
      by_cases hboth : flags &&& TABLE_HAS_CREATED_AT ≠ 0 ∧ flags &&& TABLE_HAS_UPDATED_AT ≠ 0
      · have := f3 hboth
        simp only [if_pos hboth]
        rw [write_u64_other _ _ _ (by omega)]
      · simp only [if_neg hboth])]
  exact read_write_u64 _ _ _ hnow

theorem stamp_second {flags record_size : Nat} (record : Nat → Nat) (id : Nat) {now : Nat}
    (hboth : flags &&& TABLE_HAS_CREATED_AT ≠ 0 ∧ flags &&& TABLE_HAS_UPDATED_AT ≠ 0)
    (hnow : now < 2 ^ 64) :
    read_u64 (stamp flags record_size record id now) (record_size - 16) = now := by
  unfold stamp
  simp only [if_pos hboth]
  exact read_write_u64 _ _ _ hnow

theorem stamp_one {flags record_size : Nat} (record : Nat → Nat) (id now : Nat)
    (hnot : ¬ (flags &&& TABLE_HAS_CREATED_AT ≠ 0 ∧ flags &&& TABLE_HAS_UPDATED_AT ≠ 0))
    {o : Nat} (h8 : 8 ≤ o) (ho : o < record_size - 8) :
    stamp flags record_size record id now o = record o := by
  unfold stamp
  simp only [if_neg hnot]
  by_cases hany : flags &&& TABLE_HAS_CREATED_AT ≠ 0 ∨ flags &&& TABLE_HAS_UPDATED_AT ≠ 0
  · simp only [if_pos hany]
    rw [write_u64_other _ _ _ (by omega)]
    split_ifs
    · exact write_u64_other _ _ _ (by omega)
    · rfl
  · simp only [if_neg hany]
    split_ifs
    · exact write_u64_other _ _ _ (by omega)
    · rfl

theorem stamp_none {flags record_size : Nat} (record : Nat → Nat) (id now : Nat)
    (hnone : ¬ (flags &&& TABLE_HAS_CREATED_AT ≠ 0 ∨ flags &&& TABLE_HAS_UPDATED_AT ≠ 0))
    {o : Nat} (h8 : 8 ≤ o) :
    stamp flags record_size record id now o = record o := by
  have hnot : ¬ (flags &&& TABLE_HAS_CREATED_AT ≠ 0 ∧ flags &&& TABLE_HAS_UPDATED_AT ≠ 0) :=
    fun h => hnone (Or.inl h.1)
  unfold stamp
  simp only [if_neg hnone, if_neg hnot]
  split_ifs
  · exact write_u64_other _ _ _ (by omega)
  · rfl

/-- C11 as stated fails: in a table for records of 16 bytes with the flag `HasCreatedAt`
alone, the second-to-last 8 bytes of the record are the identity field; `table_insert`
writes the identity there, so byte 0 of the stored record is 1, not the caller's 170. -/
theorem C11_second_to_last_holds_identity :
    (( table_initialize 16 2 4096).flags &&& TABLE_HAS_CREATED_AT ≠ 0 ∧
      ( table_initialize 16 2 4096).flags &&& TABLE_HAS_UPDATED_AT = 0) ∧
    ∃ pt1 p, table_insert ( table_initialize 16 2 4096) (fun _ => 170) demo_env
        = some (pt1, p) ∧
      16 - 16 ≤ 0 ∧ 0 < 16 - 8 ∧ record_at pt1 p 0 = 1 ∧ record_at pt1 p 0 ≠ 170 := by
  refine ⟨by decide, _, _, rfl, by decide, by decide, by decide, by decide⟩

/-- C11, amended: in every reachable table whose index has a free entry, for records with
room for the fields that `table_insert` writes and a clock value `now` of 64 bits,
`table_insert` returns, and in the record it stores: if both `HasCreatedAt` and
`HasUpdatedAt` are set, the last and the second-to-last 8 bytes both hold `now`; if exactly
one of them is set, the last 8 bytes hold `now` and every byte between the identity field
and the last 8 bytes is the caller's, so the second-to-last 8 bytes keep the caller's bytes
except where they overlap the identity field (`record_size < 24`); if neither is set,
every byte after the identity field is the caller's: no timestamp byte is written. -/
theorem C11_insert_timestamps {record_size flags : Nat} {live : Finset Nat}
    {content : Nat → Nat → Nat} {pt : Table} (h : Reach record_size flags live content pt)
    (hfit : fits (flags ||| TABLE_HAS_ID) record_size)
    (record : Nat → Nat) (env : Env) (hnow : env.now < 2 ^ 64)
    (halloc : pt.number_of_slots ≤ pt.number_of_records →
      ok_block env.slots ((pt.number_of_slots + TABLE_INCREMENT) * record_size))
    (hroom : pt.number_of_records < pt.number_of_slots →
      pt.auto_increment < pt.number_of_slots) :
    ∃ pt1 p, table_insert pt record env = some (pt1, p) ∧
      (pt.flags &&& TABLE_HAS_CREATED_AT ≠ 0 ∧ pt.flags &&& TABLE_HAS_UPDATED_AT ≠ 0 →
        read_u64 (record_at pt1 p) (record_size - 8) = env.now ∧
        read_u64 (record_at pt1 p) (record_size - 16) = env.now) ∧
      ((pt.flags &&& TABLE_HAS_CREATED_AT ≠ 0 ∨ pt.flags &&& TABLE_HAS_UPDATED_AT ≠ 0) ∧
          ¬ (pt.flags &&& TABLE_HAS_CREATED_AT ≠ 0 ∧ pt.flags &&& TABLE_HAS_UPDATED_AT ≠ 0) →
        read_u64 (record_at pt1 p) (record_size - 8) = env.now ∧
        ∀ o, 8 ≤ o → o < record_size - 8 → record_at pt1 p o = record o) ∧
      (¬ (pt.flags &&& TABLE_HAS_CREATED_AT ≠ 0 ∨ pt.flags &&& TABLE_HAS_UPDATED_AT ≠ 0) →
        ∀ o, 8 ≤ o → o < record_size → record_at pt1 p o = record o) := by
  obtain ⟨hinv, hfl, hrs, hst⟩ := reach_inv h
  obtain ⟨pt1, p, hins⟩ := insert_total hinv record env (by rw [hrs]; exact halloc)
    (by rw [hfl, hrs]; exact hfit) hroom
  obtain ⟨i1, i2, i3, i4, i5, i6, i7, i8⟩ :=
    inv_insert hinv record env (by rw [hrs]; exact halloc) hins
  have hst1 := i8 (by rw [hfl, hrs]; exact hfit) content (hst hfit)
  have hmem : pt1.auto_increment ∈ insert pt1.auto_increment live := Finset.mem_insert_self _ _
  have hrk : rank (insert pt1.auto_increment live) pt1.auto_increment
      = pt.number_of_records := by
    rw [rank_insert_of_le (le_refl _), i7,
      rank_eq_card (fun k hk => by have := hinv.ids k hk; omega), hinv.count]
  rw [hrs] at i2
  have hrec : ∀ o, o < record_size → record_at pt1 p o
      = stamp pt.flags record_size record pt1.auto_increment env.now o := by
    intro o ho
    have := hst1.rec_at _ hmem o (by rw [i4, hrs]; exact ho)
    rw [hrk, i4, hrs, Function.update_same] at this
    rw [← this, i2]
    simp only [record_at, Nat.add_sub_cancel_left]
  have hfit' : fits pt.flags record_size := by rw [hfl]; exact hfit
  obtain ⟨_, f2, f3⟩ := hfit'
  have hlast : pt.flags &&& TABLE_HAS_CREATED_AT ≠ 0 ∨ pt.flags &&& TABLE_HAS_UPDATED_AT ≠ 0 →
      read_u64 (record_at pt1 p) (record_size - 8) = env.now := by
    intro hany
    have := f2 hany
    rw [read_u64_congr _ (stamp pt.flags record_size record pt1.auto_increment env.now)
      (record_size - 8) (fun i hi => hrec _ (by omega))]
    exact stamp_last record _ hany (by rw [hfl]; exact hfit) hnow
  refine ⟨pt1, p, hins, fun hboth => ⟨hlast (Or.inl hboth.1), ?_⟩,
    fun hone => ⟨hlast hone.1, fun o h8 ho => ?_⟩, fun hnone o h8 ho => ?_⟩
  · have := f3 hboth
    rw [read_u64_congr _ (stamp pt.flags record_size record pt1.auto_increment env.now)
      (record_size - 16) (fun i hi => hrec _ (by omega))]
    exact stamp_second record _ hboth hnow
  · rw [hrec o (by omega)]
    exact stamp_one record _ _ hone.2 h8 ho
  · rw [hrec o ho]
    exact stamp_none record _ _ hnone h8

theorem C11_witness :
    ∃ pt1 p, table_insert (demo_table 2) (demo_records 2) demo_env = some (pt1, p) ∧
      ((demo_table 2).flags &&& TABLE_HAS_CREATED_AT ≠ 0 ∧
          (demo_table 2).flags &&& TABLE_HAS_UPDATED_AT ≠ 0 →
        read_u64 (record_at pt1 p) (24 - 8) = demo_env.now ∧
        read_u64 (record_at pt1 p) (24 - 16) = demo_env.now) ∧
      (((demo_table 2).flags &&& TABLE_HAS_CREATED_AT ≠ 0 ∨
            (demo_table 2).flags &&& TABLE_HAS_UPDATED_AT ≠ 0) ∧
          ¬ ((demo_table 2).flags &&& TABLE_HAS_CREATED_AT ≠ 0 ∧
            (demo_table 2).flags &&& TABLE_HAS_UPDATED_AT ≠ 0) →
        read_u64 (record_at pt1 p) (24 - 8) = demo_env.now ∧
        ∀ o, 8 ≤ o → o < 24 - 8 → record_at pt1 p o = demo_records 2 o) ∧
      (¬ ((demo_table 2).flags &&& TABLE_HAS_CREATED_AT ≠ 0 ∨
            (demo_table 2).flags &&& TABLE_HAS_UPDATED_AT ≠ 0) →
        ∀ o, 8 ≤ o → o < 24 → record_at pt1 p o = demo_records 2 o) :=
  C11_insert_timestamps (demo_reach 2 (by decide)) (by decide) (demo_records 2) demo_env
    (by decide) (fun _ => by decide) (by decide)

end Pit
